import Mathlib

/-!
Verification of the Azure DevOps PR reviewer adapter.

Shallow embedding of the adapter's source:
* `src/core/tools.ts` — the `azure_devops_reviewer` tool dispatcher and its
  `requireParam` helper;
* `azure-devops-service.ts` (reproduced in `docs/plan.md`) — the
  `AzureDevOpsService` class: singleton initialization, git-remote parsing
  (`parseAzureRemote`), the REST request wrapper, and the per-action methods.

Dynamic JavaScript values relevant to the dispatcher's runtime checks are
modelled by `JsValue`; network interaction is modelled by passing stubbed
responses / response tables explicitly and counting the requests performed.
-/

namespace AdoReviewer

/-! ## Dynamic values and the dispatcher (src/core/tools.ts) -/

/-- The JavaScript runtime values that can reach `requireParam` through the
tool's parameter object: `undefined`, `null`, strings and (integer) numbers. -/
inductive JsValue where
  | undef
  | vnull
  | vstr (s : String)
  | vnum (n : Int)
  deriving DecidableEq, Repr

/-- The test performed by `requireParam`'s guard:
`value === undefined || value === null || (typeof value === "string" && !value.length)`. -/
def isMissingValue : JsValue → Bool
  | .undef => true
  | .vnull => true
  | .vstr s => s.length == 0
  | .vnum _ => false

/-- `requireParam` from src/core/tools.ts: throws a
"Missing required parameter" error for `undefined`, `null` and the empty
string, and returns every other value unchanged. -/
def requireParam (value : JsValue) (name : String) : Except String JsValue :=
  if isMissingValue value then .error ("Missing required parameter: " ++ name)
  else .ok value

/-- A line/offset position inside a file (thread anchoring). -/
structure FilePosition where
  line : Int
  offset : Int
  deriving DecidableEq, Repr

/-- The optional file-region anchor for new comment threads. -/
structure ThreadContext where
  filePath : Option String := none
  leftFileStart : Option FilePosition := none
  leftFileEnd : Option FilePosition := none
  rightFileStart : Option FilePosition := none
  rightFileEnd : Option FilePosition := none
  deriving DecidableEq, Repr

/-- The seven literal action names accepted by the tool. -/
inductive Action where
  | list_prs
  | get_pr
  | get_diff
  | get_comments
  | post_comment
  | reply_comment
  | resolve_thread
  deriving DecidableEq, Repr

/-- The tool's parameter object.  All per-action parameters are optional at
the schema level, hence modelled as dynamic values (absent = `undefined`). -/
structure ToolParams where
  action : Action
  pullRequestId : JsValue := .undef
  threadId : JsValue := .undef
  content : JsValue := .undef
  status : JsValue := .undef
  threadContext : Option ThreadContext := none

/-- The service method (with arguments) that a dispatch resolves to. -/
inductive ServiceCall where
  | listPullRequests
  | getPullRequest (prId : JsValue)
  | getPullRequestDiff (prId : JsValue)
  | getPullRequestThreads (prId : JsValue)
  | postComment (prId : JsValue) (content : JsValue) (threadContext : Option ThreadContext)
  | replyToThread (prId : JsValue) (threadId : JsValue) (content : JsValue)
  | updateThreadStatus (prId : JsValue) (threadId : JsValue) (status : JsValue)
  deriving DecidableEq, Repr

/-- JavaScript's nullish coalescing `a ?? b`. -/
def nullishOr (v : JsValue) (dflt : JsValue) : JsValue :=
  match v with
  | .undef => dflt
  | .vnull => dflt
  | v => v

/-- The `switch (params.action)` body of the `azure_devops_reviewer` tool's
`execute`: validates required parameters via `requireParam` and resolves to
the corresponding `AzureDevOpsService` method call. -/
def execute (params : ToolParams) : Except String ServiceCall :=
  match params.action with
  | .list_prs => .ok .listPullRequests
  | .get_pr => do
    let prId ← requireParam params.pullRequestId "pullRequestId"
    .ok (.getPullRequest prId)
  | .get_diff => do
    let prId ← requireParam params.pullRequestId "pullRequestId"
    .ok (.getPullRequestDiff prId)
  | .get_comments => do
    let prId ← requireParam params.pullRequestId "pullRequestId"
    .ok (.getPullRequestThreads prId)
  | .post_comment => do
    let prId ← requireParam params.pullRequestId "pullRequestId"
    let content ← requireParam params.content "content"
    .ok (.postComment prId content params.threadContext)
  | .reply_comment => do
    let prId ← requireParam params.pullRequestId "pullRequestId"
    let threadId ← requireParam params.threadId "threadId"
    let content ← requireParam params.content "content"
    .ok (.replyToThread prId threadId content)
  | .resolve_thread => do
    let prId ← requireParam params.pullRequestId "pullRequestId"
    let threadId ← requireParam params.threadId "threadId"
    let status := nullishOr params.status (.vstr "closed")
    .ok (.updateThreadStatus prId threadId status)

/-- The tool's `execute` body starts with
`const service = await AzureDevOpsService.getInstance();` before the switch.
When the singleton is not yet initialized this runs the initialization
sequence, which performs one HTTP request (the repository-metadata fetch of
`ensureRepositoryMetadata`); when it is already initialized no request is
made.  `callsOf` gives the number of HTTP requests the dispatched service
method itself performs.  Returns the dispatch outcome together with the
total number of HTTP requests performed during this tool invocation
(assuming initialization, when it runs, succeeds). -/
def executeWithInstance (alreadyInitialized : Bool) (params : ToolParams)
    (callsOf : ServiceCall → Nat) : Except String ServiceCall × Nat :=
  let initCalls : Nat := if alreadyInitialized then 0 else 1
  match execute params with
  | .error e => (.error e, initCalls)
  | .ok call => (.ok call, initCalls + callsOf call)

/-! ## HTTP request/response model (AzureDevOpsService.request) -/

/-- A stubbed HTTP response: numeric status, status text and raw body text. -/
structure HttpResponse where
  status : Nat
  statusText : String
  bodyText : String
  deriving DecidableEq, Repr

/-- `response.ok` of the fetch API: status in the range 200–299. -/
def responseOk (r : HttpResponse) : Bool :=
  decide (200 ≤ r.status) && decide (r.status ≤ 299)

/-- Response handling of `AzureDevOpsService.request`: a non-ok status
raises an error interpolating the status, status text and body text; a 204
returns `undefined` (here `none`) without consulting the body; otherwise the
body is JSON-parsed (the parse being abstracted by `parseJson`, whose
failure propagates). -/
def handleResponse {α : Type} (parseJson : String → Except String α)
    (r : HttpResponse) : Except String (Option α) :=
  if !(responseOk r) then
    .error ("Azure DevOps request failed (" ++ toString r.status ++ " "
      ++ r.statusText ++ "): " ++ r.bodyText)
  else if r.status = 204 then
    .ok none
  else
    match parseJson r.bodyText with
    | .error e => .error e
    | .ok a => .ok (some a)

/-- JSON payload shapes of the mutating calls. -/
structure CommentPayload where
  parentCommentId : Nat
  content : String
  commentType : String
  deriving DecidableEq, Repr

/-- Request bodies sent by the service (structured view of the
`JSON.stringify`ed payloads; `empty` for body-less GET requests). -/
inductive RequestBody where
  | empty
  | newThread (status : String) (threadContext : Option ThreadContext)
      (comments : List CommentPayload)
  | threadReply (payload : CommentPayload)
  | threadStatusPatch (status : String)
  deriving DecidableEq, Repr

/-- An HTTP request as issued by the service. -/
structure HttpRequestModel where
  method : String
  path : String
  body : RequestBody
  deriving DecidableEq, Repr

/-- The request issued by `getPullRequest`. -/
def getPullRequestRequest (repositoryId : String) (pullRequestId : Int) : HttpRequestModel :=
  ⟨"GET", "repositories/" ++ repositoryId ++ "/pullRequests/" ++ toString pullRequestId,
    .empty⟩

/-- The request issued by `updateThreadStatus`: a PATCH whose payload is
`{ status }`. -/
def updateThreadStatusRequest (repositoryId : String) (pullRequestId threadId : Int)
    (status : String) : HttpRequestModel :=
  ⟨"PATCH",
    "repositories/" ++ repositoryId ++ "/pullRequests/" ++ toString pullRequestId
      ++ "/threads/" ++ toString threadId,
    .threadStatusPatch status⟩

/-- One run of `request` against a stubbed transport: a single fetch of the
given request (no retry), with the response handled by `handleResponse`.
The second component counts the transport calls performed (always exactly
one). -/
def requestRun {α : Type} (transport : HttpRequestModel → HttpResponse)
    (req : HttpRequestModel) (parseJson : String → Except String α) :
    Except String (Option α) × Nat :=
  (handleResponse parseJson (transport req), 1)

/-- `getPullRequest` against a stubbed transport (its one HTTP round trip). -/
def getPullRequestRun {α : Type} (transport : HttpRequestModel → HttpResponse)
    (parseJson : String → Except String α) (repositoryId : String)
    (pullRequestId : Int) : Except String (Option α) × Nat :=
  requestRun transport (getPullRequestRequest repositoryId pullRequestId) parseJson

/-- `updateThreadStatus` against a stubbed transport (its one HTTP round
trip, carrying the `{ status }` payload). -/
def updateThreadStatusRun {α : Type} (transport : HttpRequestModel → HttpResponse)
    (parseJson : String → Except String α) (repositoryId : String)
    (pullRequestId threadId : Int) (status : String) : Except String (Option α) × Nat :=
  requestRun transport
    (updateThreadStatusRequest repositoryId pullRequestId threadId status) parseJson

/-! ## Iterations and the diff retrieval (getPullRequestDiff) -/

/-- An element of the PR iterations list returned by the server. -/
structure Iteration where
  id : Int
  createdDate : String
  deriving DecidableEq, Repr

/-- Comparator order used by `getLatestIterationId`'s
`sort((a, b) => a.id - b.id)`: ascending by `id`. -/
def iterLe (a b : Iteration) : Prop := a.id ≤ b.id

instance : DecidableRel iterLe := fun a b => inferInstanceAs (Decidable (a.id ≤ b.id))

instance : IsTotal Iteration iterLe := ⟨fun a b => Int.le_total a.id b.id⟩

instance : IsTrans Iteration iterLe := ⟨fun _ _ _ h h' => le_trans h h'⟩

/-- `getLatestIterationId`: `null` on an empty iteration list; otherwise the
`id` of the last element of a copy sorted ascending by `id`.  (JS
`Array.prototype.sort` with the comparator `a.id - b.id` is modelled by a
sort with respect to `iterLe`; the code relies only on the result being a
sorted permutation.) -/
def getLatestIterationId (iterations : List Iteration) : Option Int :=
  if iterations.length = 0 then none
  else
    match (List.insertionSort iterLe iterations).getLast? with
    | some it => some it.id
    | none => none

/-- An element of an iteration's file change list. -/
structure PullRequestChange where
  changeType : String
  path : Option String
  deriving DecidableEq, Repr

/-- `getPullRequestDiff`, with the first step's response (the iteration
list) and the second step's transport (`changesOf`, the change list the
server would return for a given iteration id) stubbed: resolves the latest
iteration id, returns `[]` without a second request when there is none, and
otherwise fetches that iteration's changes.  The second component counts the
change-list HTTP requests performed. -/
def getPullRequestDiff (iterations : List Iteration)
    (changesOf : Int → List PullRequestChange) : List PullRequestChange × Nat :=
  match getLatestIterationId iterations with
  | none => ([], 0)
  | some latest => (changesOf latest, 1)

/-! ## Remote URL parsing (parseAzureRemote)

The source tries four JavaScript regexes in order (all with the `i` flag,
all end-anchored, none start-anchored, each with three lazy `(.+?)` capture
groups and an optional `(?:\.git)?` before `$`):

1. `https:\/\/dev\.azure\.com\/(.+?)\/(.+?)\/_git\/(.+?)(?:\.git)?$`
2. `https:\/\/[\w.-]+@dev\.azure\.com\/(.+?)\/(.+?)\/_git\/(.+?)(?:\.git)?$`
3. `git@ssh\.dev\.azure\.com:v3\/(.+?)\/(.+?)\/(.+?)(?:\.git)?$`
4. `https:\/\/(.+?)\.visualstudio\.com\/(.+?)\/_git\/(.+?)(?:\.git)?$`

They are embedded below as backtracking matchers over `List Char` with the
exact leftmost-position / lazy-group / greedy-optional search order of the
JavaScript engine. -/

/-- Case-insensitive character comparison: ASCII case folding, which is
what the `i` flag performs on the (all-ASCII) literal parts of the
patterns. -/
def chEq (a b : Char) : Bool := a.toLower == b.toLower

/-- Case-insensitive equality of whole character lists. -/
def ciEqL : List Char → List Char → Bool
  | [], [] => true
  | a :: as, b :: bs => chEq a b && ciEqL as bs
  | _, _ => false

/-- Match the literal `lit` case-insensitively at the head of `s`,
returning the remaining input. -/
def dropLitCI : List Char → List Char → Option (List Char)
  | [], s => some s
  | _ :: _, [] => none
  | p :: ps, c :: cs => if chEq p c then dropLitCI ps cs else none

/-- Line terminators, which the regex `.` does not match. -/
def isLineTerm (c : Char) : Bool :=
  c == '\n' || c == '\r' || c == Char.ofNat 0x2028 || c == Char.ofNat 0x2029

/-- The characters of the `.git` literal. -/
def gitLit : List Char := ['.', 'g', 'i', 't']

/-- `(.+?)(?:\.git)?$`: a lazy one-or-more run of `.`-matchable characters,
then an optional case-insensitive `.git`, then end of input; returns the
capture.  The group grows one character at a time (lazy); at each size the
greedy optional tries the `.git` branch before the empty branch. -/
def tailGroup : List Char → Option (List Char)
  | [] => none
  | c :: rest =>
    if isLineTerm c then none
    else if dropLitCI gitLit rest = some [] then some [c]
    else if rest = [] then some [c]
    else
      match tailGroup rest with
      | some g => some (c :: g)
      | none => none

/-- `(.+?)` followed by the continuation `next`: lazily the smallest
non-empty run of `.`-matchable characters after which `next` succeeds on
the rest of the input. -/
def lazyGroup {α : Type} (next : List Char → Option α) : List Char → Option (List Char × α)
  | [] => none
  | c :: rest =>
    if isLineTerm c then none
    else
      match next rest with
      | some a => some ([c], a)
      | none =>
        match lazyGroup next rest with
        | some (g, a) => some (c :: g, a)
        | none => none

/-- Continuation after the project group of patterns 1, 2 and 4:
`\/_git\/` then the repository group. -/
def afterProj (r : List Char) : Option (List Char) :=
  match dropLitCI ['/', '_', 'g', 'i', 't', '/'] r with
  | some r2 => tailGroup r2
  | none => none

/-- `(.+?)\/_git\/(.+?)(?:\.git)?$`: the (project, repository) groups. -/
def projRepoGit (s : List Char) : Option (List Char × List Char) :=
  lazyGroup afterProj s

/-- Continuation after the organization group of patterns 1 and 2:
`\/` then project and repository. -/
def afterOrg (r : List Char) : Option (List Char × List Char) :=
  match dropLitCI ['/'] r with
  | some r2 => projRepoGit r2
  | none => none

/-- `(.+?)\/(.+?)\/_git\/(.+?)(?:\.git)?$`: the three capture groups. -/
def orgProjRepoGit (s : List Char) : Option (List Char × List Char × List Char) :=
  lazyGroup afterOrg s

/-- Continuation after the project group of pattern 3: `\/` then the
repository group. -/
def afterSshProj (r : List Char) : Option (List Char) :=
  match dropLitCI ['/'] r with
  | some r2 => tailGroup r2
  | none => none

/-- `(.+?)\/(.+?)(?:\.git)?$` for pattern 3's last two groups. -/
def sshProjRepo (s : List Char) : Option (List Char × List Char) :=
  lazyGroup afterSshProj s

/-- Continuation after the organization group of pattern 3. -/
def afterSshOrg (r : List Char) : Option (List Char × List Char) :=
  match dropLitCI ['/'] r with
  | some r2 => sshProjRepo r2
  | none => none

/-- Pattern 3's `(.+?)\/(.+?)\/(.+?)(?:\.git)?$`: the three groups. -/
def sshTriple (s : List Char) : Option (List Char × List Char × List Char) :=
  lazyGroup afterSshOrg s

/-- Continuation after the organization group of pattern 4:
`\.visualstudio\.com\/` then project and repository. -/
def afterLegacyOrg (r : List Char) : Option (List Char × List Char) :=
  match dropLitCI ".visualstudio.com/".toList r with
  | some r2 => projRepoGit r2
  | none => none

/-- Pattern 4's `(.+?)\.visualstudio\.com\/(.+?)\/_git\/(.+?)(?:\.git)?$`. -/
def legacyTriple (s : List Char) : Option (List Char × List Char × List Char) :=
  lazyGroup afterLegacyOrg s

/-- The character class `[\w.-]` (with `\w` = `[A-Za-z0-9_]`). -/
def isClassChar (c : Char) : Bool :=
  ('a' ≤ c && c ≤ 'z') || ('A' ≤ c && c ≤ 'Z') || ('0' ≤ c && c ≤ '9')
    || c == '_' || c == '.' || c == '-'

/-- `[\w.-]+@`: the greedy class run followed by a literal `@`, returning
the rest.  Backtracking into the greedy run cannot succeed: shortening it
puts a class character where the `@` is required, and `@` is not in the
class; so the run is maximal. -/
def classRunAt (s : List Char) : Option (List Char) :=
  let run := s.takeWhile isClassChar
  if run.length = 0 then none
  else
    match s.dropWhile isClassChar with
    | '@' :: r2 => some r2
    | _ => none

/-- Pattern 1 applied at the current position. -/
def tryPat1At (s : List Char) : Option (List Char × List Char × List Char) :=
  (dropLitCI "https://dev.azure.com/".toList s).bind orgProjRepoGit

/-- Pattern 2 applied at the current position. -/
def tryPat2At (s : List Char) : Option (List Char × List Char × List Char) :=
  (dropLitCI "https://".toList s).bind fun r1 =>
    (classRunAt r1).bind fun r2 =>
      (dropLitCI "dev.azure.com/".toList r2).bind orgProjRepoGit

/-- Pattern 3 applied at the current position. -/
def tryPat3At (s : List Char) : Option (List Char × List Char × List Char) :=
  (dropLitCI "git@ssh.dev.azure.com:v3/".toList s).bind sshTriple

/-- Pattern 4 applied at the current position. -/
def tryPat4At (s : List Char) : Option (List Char × List Char × List Char) :=
  (dropLitCI "https://".toList s).bind legacyTriple

/-- `String.prototype.match` search for a non-anchored pattern: the pattern
is tried at each position from the left; the first success wins. -/
def searchWith {α : Type} (tryAt : List Char → Option α) : List Char → Option α
  | [] => none
  | c :: rest =>
    match tryAt (c :: rest) with
    | some m => some m
    | none => searchWith tryAt rest

/-- The organization/project/repository triple. -/
structure RepositoryInfo where
  organization : String
  project : String
  repository : String
  deriving DecidableEq, Repr

/-- `parseAzureRemote`: tries the four patterns in source order and returns
the first match's captures, or `null` (here `none`) when none apply. -/
def parseAzureRemote (remoteUrl : String) : Option RepositoryInfo :=
  match searchWith tryPat1At remoteUrl.toList with
  | some (o, p, r) => some ⟨o.asString, p.asString, r.asString⟩
  | none =>
  match searchWith tryPat2At remoteUrl.toList with
  | some (o, p, r) => some ⟨o.asString, p.asString, r.asString⟩
  | none =>
  match searchWith tryPat3At remoteUrl.toList with
  | some (o, p, r) => some ⟨o.asString, p.asString, r.asString⟩
  | none =>
  match searchWith tryPat4At remoteUrl.toList with
  | some (o, p, r) => some ⟨o.asString, p.asString, r.asString⟩
  | none => none

/-- A URL of the standard hosted HTTPS shape
`https://dev.azure.com/{org}/{project}/_git/{repo}` (the repository part
`RP` is the repository name with or without a trailing `.git`). -/
def urlShape1 (org proj RP : List Char) : List Char :=
  "https://dev.azure.com/".toList ++ org ++ '/' :: proj
    ++ ['/', '_', 'g', 'i', 't', '/'] ++ RP

/-- A URL of the HTTPS-with-embedded-username shape
`https://{user}@dev.azure.com/{org}/{project}/_git/{repo}`. -/
def urlShape2 (user org proj RP : List Char) : List Char :=
  "https://".toList ++ user ++ '@' :: "dev.azure.com/".toList ++ org ++ '/' :: proj
    ++ ['/', '_', 'g', 'i', 't', '/'] ++ RP

/-- A URL of the SSH v3 shape
`git@ssh.dev.azure.com:v3/{org}/{project}/{repo}`. -/
def urlShape3 (org proj RP : List Char) : List Char :=
  "git@ssh.dev.azure.com:v3/".toList ++ org ++ '/' :: proj ++ '/' :: RP

/-- A URL of the legacy per-organization subdomain shape
`https://{org}.visualstudio.com/{project}/_git/{repo}`. -/
def urlShape4 (org proj RP : List Char) : List Char :=
  "https://".toList ++ org ++ ".visualstudio.com/".toList ++ proj
    ++ ['/', '_', 'g', 'i', 't', '/'] ++ RP

/-- Whether `l` ends in a (case-insensitive) `.git` suffix preceded by at
least one character — exactly the situation in which the matchers would
capture less than all of `l` as the repository name. -/
def endsWithGitCI (l : List Char) : Bool :=
  decide (5 ≤ l.length) && ciEqL gitLit (l.drop (l.length - 4))

/-! ## Initialization and the memoized singleton -/

/-- The resolved service state: coordinates, token and the lazily resolved
repository identifier. -/
structure ServiceState where
  repoInfo : RepositoryInfo
  pat : String
  repositoryId : Option String := none
  deriving DecidableEq, Repr

/-- JavaScript `String.prototype.trim`: strip leading and trailing
whitespace. -/
def jsTrim (s : List Char) : List Char :=
  ((s.dropWhile Char.isWhitespace).reverse.dropWhile Char.isWhitespace).reverse

/-- `AzureDevOpsService.initialize`, with its externals stubbed:
`adoPat` is `process.env.ADO_PAT` (`none` = unset); `remoteUrl` is what
`git remote get-url origin` would print (already trimmed); `repoMetadata`
is the outcome of the repository-metadata request — `.error` for a failed
request, `.ok none` when the response has no string `id`, `.ok (some id)`
otherwise.  Returns the outcome together with the number of git-command
invocations and of HTTP requests performed. -/
def initService (adoPat : Option String) (remoteUrl : String)
    (repoMetadata : Except String (Option String)) :
    Except String ServiceState × Nat × Nat :=
  match adoPat.map (fun s => (jsTrim s.toList).asString) with
  | none => (.error "ADO_PAT environment variable is not set", 0, 0)
  | some pat =>
    if pat = "" then (.error "ADO_PAT environment variable is not set", 0, 0)
    else
      match parseAzureRemote remoteUrl with
      | none =>
        (.error ("Unable to determine Azure DevOps repository details from git remote: "
          ++ remoteUrl), 1, 0)
      | some repoInfo =>
        match repoMetadata with
        | .error e => (.error e, 1, 1)
        | .ok none => (.error "Unable to fetch Azure DevOps repository metadata", 1, 1)
        | .ok (some rid) =>
          if rid = "" then (.error "Unable to fetch Azure DevOps repository metadata", 1, 1)
          else (.ok ⟨repoInfo, pat, some rid⟩, 1, 1)

/-- One call of `AzureDevOpsService.getInstance` over the memoized static
field `serviceInstance` (which caches the initialization promise, i.e. its
eventual outcome, whether resolved or rejected): returns the observed
outcome, the new cache state, and the number of initialization sequences
run during the call. -/
def getInstanceStep (cached : Option (Except String ServiceState))
    (init : Unit → Except String ServiceState) :
    Except String ServiceState × Option (Except String ServiceState) × Nat :=
  match cached with
  | some r => (r, some r, 0)
  | none =>
    let r := init ()
    (r, some r, 1)

/-- `n` successive calls of `getInstance` starting from cache state
`cached`: the outcomes observed by the callers in order, the final cache
state, and the total number of initialization sequences run. -/
def getInstanceCalls : Nat → Option (Except String ServiceState) →
    (Unit → Except String ServiceState) →
    List (Except String ServiceState) × Option (Except String ServiceState) × Nat
  | 0, cached, _ => ([], cached, 0)
  | n + 1, cached, init =>
    let step := getInstanceStep cached init
    let rest := getInstanceCalls n step.2.1 init
    (step.1 :: rest.1, rest.2.1, step.2.2 + rest.2.2)

/-! ## Theorems -/

/-! ### Character and literal-matching lemmas -/

theorem toNat_ofNat_valid (n : Nat) (h : n < 55296) : (Char.ofNat n).toNat = n := by
  have hv : n.isValidChar := Or.inl h
  simp [Char.ofNat, hv, Char.ofNatAux, Char.toNat, UInt32.toNat, BitVec.toNat_ofNatLt]

theorem toLower_fix {c : Char} (h1 : ¬(65 ≤ c.toNat ∧ c.toNat ≤ 90)) : c.toLower = c := by
  simp [Char.toLower, h1]

theorem eq_of_chEq_symbol {c d : Char} (h1 : ¬(65 ≤ c.toNat ∧ c.toNat ≤ 90))
    (h2 : ¬(97 ≤ c.toNat ∧ c.toNat ≤ 122)) (heq : chEq c d = true) : d = c := by
  have heq' : d.toLower = c.toLower := (beq_iff_eq.mp heq).symm
  rw [toLower_fix h1] at heq'
  by_cases hd : 65 ≤ d.toNat ∧ d.toNat ≤ 90
  · exfalso
    have hlow : d.toLower = Char.ofNat (d.toNat + 32) := by simp [Char.toLower, hd]
    rw [hlow] at heq'
    have hval : (Char.ofNat (d.toNat + 32)).toNat = d.toNat + 32 :=
      toNat_ofNat_valid _ (by omega)
    rw [heq'] at hval
    omega
  · rwa [toLower_fix hd] at heq'

theorem chEq_refl (c : Char) : chEq c c = true := by simp [chEq]

theorem chEq_slash {d : Char} (h : chEq '/' d = true) : d = '/' :=
  eq_of_chEq_symbol (by decide) (by decide) h

theorem chEq_colon {d : Char} (h : chEq ':' d = true) : d = ':' :=
  eq_of_chEq_symbol (by decide) (by decide) h

theorem chEq_at_sign {d : Char} (h : chEq '@' d = true) : d = '@' :=
  eq_of_chEq_symbol (by decide) (by decide) h

theorem ciEqL_length : ∀ {a b : List Char}, ciEqL a b = true → a.length = b.length
  | [], [], _ => rfl
  | [], _ :: _, h => by simp [ciEqL] at h
  | _ :: _, [], h => by simp [ciEqL] at h
  | _ :: as, _ :: bs, h => by
    have hh := (Bool.and_eq_true _ _).mp h
    simp [ciEqL_length hh.2]

theorem ciEqL_nil_right : ∀ {m : List Char}, ciEqL [] m = true → m = []
  | [], _ => rfl
  | _ :: _, h => by simp [ciEqL] at h

theorem ciEqL_cons_split {x : Char} {l m : List Char} (h : ciEqL (x :: l) m = true) :
    ∃ c m', m = c :: m' ∧ chEq x c = true ∧ ciEqL l m' = true := by
  cases m with
  | nil => simp [ciEqL] at h
  | cons c m' =>
    have hh := (Bool.and_eq_true _ _).mp h
    exact ⟨c, m', rfl, hh.1, hh.2⟩

theorem ciEqL_append_split : ∀ (l₁ : List Char) {l₂ m : List Char},
    ciEqL (l₁ ++ l₂) m = true →
    ∃ m₁ m₂, m = m₁ ++ m₂ ∧ ciEqL l₁ m₁ = true ∧ ciEqL l₂ m₂ = true
  | [], l₂, m, h => ⟨[], m, rfl, rfl, h⟩
  | x :: l₁, l₂, m, h => by
    obtain ⟨c, m', rfl, hc, hrest⟩ := ciEqL_cons_split h
    obtain ⟨m₁, m₂, rfl, h1, h2⟩ := ciEqL_append_split l₁ hrest
    exact ⟨c :: m₁, m₂, rfl, by simp [ciEqL, hc, h1], h2⟩

theorem not_mem_of_ciEqL : ∀ {lit m : List Char} {x : Char}, ciEqL lit m = true →
    (∀ p ∈ lit, chEq p x = false) → x ∉ m := by
  intro lit
  induction lit with
  | nil => intro m x h _; rw [ciEqL_nil_right h]; simp
  | cons p ps ih =>
    intro m x h hall
    obtain ⟨c, m', rfl, hc, hrest⟩ := ciEqL_cons_split h
    intro hmem
    rcases List.mem_cons.mp hmem with rfl | hmem'
    · have := hall p (List.mem_cons_self p ps)
      rw [hc] at this
      exact Bool.true_eq_false ▸ this
    · exact ih hrest (fun q hq => hall q (List.mem_cons_of_mem p hq)) hmem'

theorem mem_of_ciEqL_symbol : ∀ {lit m : List Char} {x : Char}, ciEqL lit m = true →
    x ∈ lit → (∀ d, chEq x d = true → d = x) → x ∈ m := by
  intro lit
  induction lit with
  | nil => intro m x _ hx _; simp at hx
  | cons p ps ih =>
    intro m x h hx hsym
    obtain ⟨c, m', rfl, hc, hrest⟩ := ciEqL_cons_split h
    rcases List.mem_cons.mp hx with rfl | hx'
    · rw [hsym c hc]; exact List.mem_cons_self _ _
    · exact List.mem_cons_of_mem c (ih hrest hx' hsym)

theorem dropLitCI_self : ∀ (lit s : List Char), dropLitCI lit (lit ++ s) = some s
  | [], s => rfl
  | p :: ps, s => by simp [dropLitCI, chEq_refl, dropLitCI_self ps s]

theorem dropLitCI_some : ∀ (lit : List Char) {s r : List Char},
    dropLitCI lit s = some r → ∃ m, s = m ++ r ∧ ciEqL lit m = true
  | [], s, r, h => ⟨[], by simpa [dropLitCI] using (Option.some.injEq _ _ ▸ h :
      s = r).symm ▸ rfl, rfl⟩
  | p :: ps, s, r, h => by
    cases s with
    | nil => simp [dropLitCI] at h
    | cons c cs =>
      by_cases hc : chEq p c = true
      · rw [dropLitCI, if_pos hc] at h
        obtain ⟨m, rfl, hci⟩ := dropLitCI_some ps h
        exact ⟨c :: m, rfl, by simp [ciEqL, hc, hci]⟩
      · rw [dropLitCI, if_neg hc] at h
        exact absurd h (by simp)

theorem dropLitCI_append : ∀ (l₁ : List Char) {l₂ s r : List Char},
    dropLitCI (l₁ ++ l₂) s = some r →
    ∃ r₁, dropLitCI l₁ s = some r₁ ∧ dropLitCI l₂ r₁ = some r
  | [], l₂, s, r, h => ⟨s, rfl, h⟩
  | p :: ps, l₂, s, r, h => by
    cases s with
    | nil => simp [dropLitCI] at h
    | cons c cs =>
      by_cases hc : chEq p c = true
      · rw [List.cons_append, dropLitCI, if_pos hc] at h
        obtain ⟨r₁, h1, h2⟩ := dropLitCI_append ps h
        exact ⟨r₁, by rw [dropLitCI, if_pos hc]; exact h1, h2⟩
      · rw [List.cons_append, dropLitCI, if_neg hc] at h
        exact absurd h (by simp)

theorem dropLitCI_nil_iff : ∀ {lit s : List Char},
    dropLitCI lit s = some [] ↔ ciEqL lit s = true := by
  intro lit
  induction lit with
  | nil =>
    intro s
    cases s with
    | nil => simp [dropLitCI, ciEqL]
    | cons c cs => simp [dropLitCI, ciEqL]
  | cons p ps ih =>
    intro s
    cases s with
    | nil => simp [dropLitCI, ciEqL]
    | cons c cs =>
      by_cases hc : chEq p c = true
      · simp [dropLitCI, hc, ciEqL, ih]
      · simp [dropLitCI, hc, ciEqL]

/-! ### Search, lazy-group and tail-group lemmas -/

theorem searchWith_pos0 {α : Type} {tryAt : List Char → Option α} {c : Char}
    {rest : List Char} {a : α} (h : tryAt (c :: rest) = some a) :
    searchWith tryAt (c :: rest) = some a := by
  simp [searchWith, h]

theorem searchWith_none {α : Type} (tryAt : List Char → Option α) :
    ∀ url : List Char, (∀ pre s', url = pre ++ s' → tryAt s' = none) →
    searchWith tryAt url = none := by
  intro url
  induction url with
  | nil => intro _; rfl
  | cons c rest ih =>
    intro h
    have h0 : tryAt (c :: rest) = none := h [] (c :: rest) rfl
    have hrec : searchWith tryAt rest = none :=
      ih (fun pre s' hE => h (c :: pre) s' (by rw [hE]; rfl))
    simp [searchWith, h0, hrec]

theorem lazyGroup_exact {α : Type} (next : List Char → Option α) :
    ∀ (G : List Char) (t : List Char) (a : α), G ≠ [] →
    (∀ c ∈ G, isLineTerm c = false) →
    next t = some a →
    (∀ pre suf, G = pre ++ suf → pre ≠ [] → suf ≠ [] → next (suf ++ t) = none) →
    lazyGroup next (G ++ t) = some (G, a) := by
  intro G
  induction G with
  | nil => intro t a h; exact absurd rfl h
  | cons c g' ih =>
    intro t a _ hnl hnext hfail
    have hc : isLineTerm c = false := hnl c (List.mem_cons_self c g')
    by_cases hg' : g' = []
    · subst hg'
      simp [lazyGroup, hc, hnext]
    · have hfail1 : next (g' ++ t) = none := hfail [c] g' rfl (by simp) hg'
      have hrec : lazyGroup next (g' ++ t) = some (g', a) := by
        refine ih t a hg' (fun x hx => hnl x (List.mem_cons_of_mem c hx)) hnext ?_
        intro pre suf hsplit hpre hsuf
        exact hfail (c :: pre) suf (by rw [hsplit]; rfl) (by simp) hsuf
      simp [lazyGroup, hc, hfail1, hrec]

theorem tailGroup_exact : ∀ (C : List Char), C ≠ [] →
    (∀ c ∈ C, isLineTerm c = false) →
    (∀ pre suf, C = pre ++ suf → pre ≠ [] → ciEqL gitLit suf = false) →
    tailGroup C = some C := by
  intro C
  induction C with
  | nil => intro h; exact absurd rfl h
  | cons c rest ih =>
    intro _ hnl hng
    have hc : isLineTerm c = false := hnl c (List.mem_cons_self c rest)
    by_cases hrest : rest = []
    · subst hrest
      simp [tailGroup, hc, dropLitCI, gitLit]
    · have hnotgit : ciEqL gitLit rest = false := hng [c] rest rfl (by simp)
      have hdrop : ¬(dropLitCI gitLit rest = some []) := by
        rw [dropLitCI_nil_iff, hnotgit]; simp
      have hrec : tailGroup rest = some rest := by
        refine ih hrest (fun x hx => hnl x (List.mem_cons_of_mem c hx)) ?_
        intro pre suf hsplit hpre
        exact hng (c :: pre) suf (by rw [hsplit]; rfl) (by simp)
      simp [tailGroup, hc, hdrop, hrest, hrec]

theorem tailGroup_gitSuffix : ∀ (C : List Char), C ≠ [] →
    (∀ c ∈ C, isLineTerm c = false) →
    tailGroup (C ++ gitLit) = some C := by
  intro C
  induction C with
  | nil => intro h; exact absurd rfl h
  | cons c rest ih =>
    intro _ hnl
    have hc : isLineTerm c = false := hnl c (List.mem_cons_self c rest)
    by_cases hrest : rest = []
    · subst hrest
      have hgit : dropLitCI gitLit ([] ++ gitLit) = some [] := by
        have := dropLitCI_self gitLit []
        simpa using this
      simp only [List.nil_append] at hgit
      simp [tailGroup, hc, hgit]
    · have hlen : ¬(dropLitCI gitLit (rest ++ gitLit) = some []) := by
        rw [dropLitCI_nil_iff]
        intro hci
        have hl := ciEqL_length hci
        rw [List.length_append] at hl
        have hg4 : gitLit.length = 4 := rfl
        rw [hg4] at hl
        exact hrest (List.eq_nil_of_length_eq_zero (by omega))
      have hrec : tailGroup (rest ++ gitLit) = some rest :=
        ih hrest (fun x hx => hnl x (List.mem_cons_of_mem c hx))
      have hne3 : rest ++ gitLit ≠ [] := by simp [gitLit]
      simp [tailGroup, hc, hlen, hne3, hrec]

/-! ### Occurrence and uniqueness lemmas -/

theorem count_split (x : Char) (A B : List Char) :
    (A ++ x :: B).count x = A.count x + B.count x + 1 := by
  simp [List.count_append, List.count_cons]
  omega

theorem append_cons_inj {x : Char} : ∀ (xs as : List Char) {ys bs : List Char},
    xs ++ x :: ys = as ++ x :: bs → x ∉ xs → x ∉ as → xs = as ∧ ys = bs := by
  intro xs
  induction xs with
  | nil =>
    intro as ys bs h hx has
    cases as with
    | nil => simp_all
    | cons a as' =>
      exfalso
      have : x = a := by simpa using congrArg (fun l => l.headI) h
      exact has (this ▸ List.mem_cons_self a as')
  | cons c xs' ih =>
    intro as ys bs h hx has
    cases as with
    | nil =>
      exfalso
      have : c = x := by simpa using congrArg (fun l => l.headI) h
      exact hx (this ▸ List.mem_cons_self c xs')
    | cons a as' =>
      have hca : c = a := by simpa using congrArg (fun l => l.headI) h
      subst hca
      have htail : xs' ++ x :: ys = as' ++ x :: bs := by simpa using congrArg List.tail h
      have := ih as' htail (fun hm => hx (List.mem_cons_of_mem c hm))
        (fun hm => has (List.mem_cons_of_mem c hm))
      exact ⟨by rw [this.1], this.2⟩

/-! ### Group-composition lemmas for the four patterns -/

theorem not_gitSuffix_of {l : List Char} (h : endsWithGitCI l = false) :
    ∀ pre suf, l = pre ++ suf → pre ≠ [] → ciEqL gitLit suf = false := by
  intro pre suf heq hpre
  by_contra hci
  rw [Bool.not_eq_false] at hci
  have hlen : suf.length = 4 := by
    have hl := ciEqL_length hci
    have hg4 : gitLit.length = 4 := rfl
    omega
  have hpl : 1 ≤ pre.length := by
    cases pre with
    | nil => exact absurd rfl hpre
    | cons _ _ => simp
  have hll : l.length = pre.length + 4 := by rw [heq, List.length_append, hlen]
  have hdrop : l.drop (l.length - 4) = suf := by
    have h4 : l.length - 4 = pre.length := by omega
    rw [h4, heq, List.drop_left]
  have hT : endsWithGitCI l = true := by
    unfold endsWithGitCI
    rw [hdrop, hci]
    simp
    omega
  simp [h] at hT

theorem takeWhile_all_append {p : Char → Bool} : ∀ (l : List Char) (x : Char)
    (r : List Char), (∀ c ∈ l, p c = true) → p x = false →
    (l ++ x :: r).takeWhile p = l ∧ (l ++ x :: r).dropWhile p = x :: r := by
  intro l
  induction l with
  | nil => intro x r _ hx; simp [List.takeWhile, List.dropWhile, hx]
  | cons c l' ih =>
    intro x r hall hx
    have hc : p c = true := hall c (List.mem_cons_self c l')
    have hrec := ih x r (fun d hd => hall d (List.mem_cons_of_mem c hd)) hx
    simp [List.takeWhile_cons, List.dropWhile_cons, hc, hrec.1, hrec.2]

theorem classRunAt_exact (user X : List Char) (hne : user ≠ [])
    (hall : ∀ c ∈ user, isClassChar c = true) :
    classRunAt (user ++ '@' :: X) = some X := by
  have hat : isClassChar '@' = false := by decide
  obtain ⟨ht, hd⟩ := takeWhile_all_append user '@' X hall hat
  have hl0 : user.length ≠ 0 := by
    intro hc; exact hne (List.eq_nil_of_length_eq_zero hc)
  unfold classRunAt
  rw [ht, hd]
  simp [hl0]

theorem classRunAt_some {s r : List Char} (h : classRunAt s = some r) :
    ∃ run, s = run ++ '@' :: r ∧ run ≠ [] ∧ ∀ c ∈ run, isClassChar c = true := by
  unfold classRunAt at h
  by_cases hl : (s.takeWhile isClassChar).length = 0
  · simp [hl] at h
  · rw [if_neg hl] at h
    split at h
    next r2 heq =>
      have hr : r2 = r := by simpa using h
      subst hr
      refine ⟨s.takeWhile isClassChar, ?_, ?_, fun c hc => List.mem_takeWhile_imp hc⟩
      · conv_lhs => rw [← List.takeWhile_append_dropWhile isClassChar s]
        rw [heq]
      · intro hnil; exact hl (by rw [hnil]; rfl)
    next =>
      exact absurd h (by simp)

theorem projRepoGit_exact (proj RP repo : List Char) (hpne : proj ≠ [])
    (hnl : ∀ c ∈ proj, isLineTerm c = false) (hslash : '/' ∉ proj)
    (htail : tailGroup RP = some repo) :
    projRepoGit (proj ++ ['/', '_', 'g', 'i', 't', '/'] ++ RP) = some (proj, repo) := by
  have hnext : afterProj (['/', '_', 'g', 'i', 't', '/'] ++ RP) = some repo := by
    unfold afterProj
    rw [dropLitCI_self]
    exact htail
  have hfail : ∀ pre suf, proj = pre ++ suf → pre ≠ [] → suf ≠ [] →
      afterProj (suf ++ (['/', '_', 'g', 'i', 't', '/'] ++ RP)) = none := by
    intro pre suf hsplit _ hsuf
    cases suf with
    | nil => exact absurd rfl hsuf
    | cons d suf' =>
      have hd : d ∈ proj := by rw [hsplit]; simp
      have hd2 : chEq '/' d = false := by
        by_contra hx
        rw [Bool.not_eq_false] at hx
        exact hslash (chEq_slash hx ▸ hd)
      simp [afterProj, dropLitCI, hd2]
  have hmain := lazyGroup_exact afterProj proj (['/', '_', 'g', 'i', 't', '/'] ++ RP)
    repo hpne hnl hnext hfail
  unfold projRepoGit
  rw [List.append_assoc]
  exact hmain

theorem orgProjRepoGit_exact (org proj RP repo : List Char) (hone : org ≠ [])
    (honl : ∀ c ∈ org, isLineTerm c = false) (hoslash : '/' ∉ org)
    (hpne : proj ≠ []) (hnl : ∀ c ∈ proj, isLineTerm c = false) (hslash : '/' ∉ proj)
    (htail : tailGroup RP = some repo) :
    orgProjRepoGit (org ++ '/' :: (proj ++ ['/', '_', 'g', 'i', 't', '/'] ++ RP)) =
      some (org, proj, repo) := by
  have hnext : afterOrg ('/' :: (proj ++ ['/', '_', 'g', 'i', 't', '/'] ++ RP)) =
      some (proj, repo) := by
    unfold afterOrg
    have hdl : dropLitCI ['/'] ('/' :: (proj ++ ['/', '_', 'g', 'i', 't', '/'] ++ RP)) =
        some (proj ++ ['/', '_', 'g', 'i', 't', '/'] ++ RP) :=
      dropLitCI_self ['/'] _
    rw [hdl]
    exact projRepoGit_exact proj RP repo hpne hnl hslash htail
  have hfail : ∀ pre suf, org = pre ++ suf → pre ≠ [] → suf ≠ [] →
      afterOrg (suf ++ '/' :: (proj ++ ['/', '_', 'g', 'i', 't', '/'] ++ RP)) = none := by
    intro pre suf hsplit _ hsuf
    cases suf with
    | nil => exact absurd rfl hsuf
    | cons d suf' =>
      have hd : d ∈ org := by rw [hsplit]; simp
      have hd2 : chEq '/' d = false := by
        by_contra hx
        rw [Bool.not_eq_false] at hx
        exact hoslash (chEq_slash hx ▸ hd)
      simp [afterOrg, dropLitCI, hd2]
  have hmain := lazyGroup_exact afterOrg org
    ('/' :: (proj ++ ['/', '_', 'g', 'i', 't', '/'] ++ RP)) (proj, repo) hone honl
    hnext hfail
  simp only [orgProjRepoGit, hmain]

theorem sshProjRepo_exact (proj RP repo : List Char) (hpne : proj ≠ [])
    (hnl : ∀ c ∈ proj, isLineTerm c = false) (hslash : '/' ∉ proj)
    (htail : tailGroup RP = some repo) :
    sshProjRepo (proj ++ '/' :: RP) = some (proj, repo) := by
  have hnext : afterSshProj ('/' :: RP) = some repo := by
    unfold afterSshProj
    have hdl : dropLitCI ['/'] ('/' :: RP) = some RP := dropLitCI_self ['/'] _
    rw [hdl]
    exact htail
  have hfail : ∀ pre suf, proj = pre ++ suf → pre ≠ [] → suf ≠ [] →
      afterSshProj (suf ++ '/' :: RP) = none := by
    intro pre suf hsplit _ hsuf
    cases suf with
    | nil => exact absurd rfl hsuf
    | cons d suf' =>
      have hd : d ∈ proj := by rw [hsplit]; simp
      have hd2 : chEq '/' d = false := by
        by_contra hx
        rw [Bool.not_eq_false] at hx
        exact hslash (chEq_slash hx ▸ hd)
      simp [afterSshProj, dropLitCI, hd2]
  exact lazyGroup_exact afterSshProj proj ('/' :: RP) repo hpne hnl hnext hfail

theorem sshTriple_exact (org proj RP repo : List Char) (hone : org ≠ [])
    (honl : ∀ c ∈ org, isLineTerm c = false) (hoslash : '/' ∉ org)
    (hpne : proj ≠ []) (hnl : ∀ c ∈ proj, isLineTerm c = false) (hslash : '/' ∉ proj)
    (htail : tailGroup RP = some repo) :
    sshTriple (org ++ '/' :: (proj ++ '/' :: RP)) = some (org, proj, repo) := by
  have hnext : afterSshOrg ('/' :: (proj ++ '/' :: RP)) = some (proj, repo) := by
    unfold afterSshOrg
    have hdl : dropLitCI ['/'] ('/' :: (proj ++ '/' :: RP)) = some (proj ++ '/' :: RP) :=
      dropLitCI_self ['/'] _
    rw [hdl]
    exact sshProjRepo_exact proj RP repo hpne hnl hslash htail
  have hfail : ∀ pre suf, org = pre ++ suf → pre ≠ [] → suf ≠ [] →
      afterSshOrg (suf ++ '/' :: (proj ++ '/' :: RP)) = none := by
    intro pre suf hsplit _ hsuf
    cases suf with
    | nil => exact absurd rfl hsuf
    | cons d suf' =>
      have hd : d ∈ org := by rw [hsplit]; simp
      have hd2 : chEq '/' d = false := by
        by_contra hx
        rw [Bool.not_eq_false] at hx
        exact hoslash (chEq_slash hx ▸ hd)
      simp [afterSshOrg, dropLitCI, hd2]
  exact lazyGroup_exact afterSshOrg org ('/' :: (proj ++ '/' :: RP)) (proj, repo)
    hone honl hnext hfail

theorem legacyTriple_exact (org proj RP repo : List Char) (hone : org ≠ [])
    (honl : ∀ c ∈ org, isLineTerm c = false) (hoslash : '/' ∉ org)
    (hpne : proj ≠ []) (hnl : ∀ c ∈ proj, isLineTerm c = false) (hslash : '/' ∉ proj)
    (htail : tailGroup RP = some repo) :
    legacyTriple (org ++ (".visualstudio.com/".toList ++
      (proj ++ ['/', '_', 'g', 'i', 't', '/'] ++ RP))) = some (org, proj, repo) := by
  have hnext : afterLegacyOrg (".visualstudio.com/".toList ++
      (proj ++ ['/', '_', 'g', 'i', 't', '/'] ++ RP)) = some (proj, repo) := by
    unfold afterLegacyOrg
    rw [dropLitCI_self]
    exact projRepoGit_exact proj RP repo hpne hnl hslash htail
  have hfail : ∀ pre suf, org = pre ++ suf → pre ≠ [] → suf ≠ [] →
      afterLegacyOrg (suf ++ (".visualstudio.com/".toList ++
        (proj ++ ['/', '_', 'g', 'i', 't', '/'] ++ RP))) = none := by
    intro pre suf hsplit _ hsuf
    unfold afterLegacyOrg
    cases hdrop : dropLitCI ".visualstudio.com/".toList
        (suf ++ (".visualstudio.com/".toList ++
          (proj ++ ['/', '_', 'g', 'i', 't', '/'] ++ RP))) with
    | none => simp
    | some r =>
      exfalso
      obtain ⟨m, hm, hci⟩ := dropLitCI_some _ hdrop
      have hL18 : (".visualstudio.com/".toList).length = 18 := by decide
      have hml : m.length = 18 := by
        have h1 := ciEqL_length hci
        omega
      have hsub : ∀ c ∈ suf, c ∈ org := by
        intro c hc; rw [hsplit]; exact List.mem_append_right pre hc
      by_cases hk : 18 ≤ suf.length
      · have hm18 : m = suf.take 18 := by
          have htk : (suf ++ (".visualstudio.com/".toList ++
              (proj ++ ['/', '_', 'g', 'i', 't', '/'] ++ RP))).take 18 = suf.take 18 :=
            List.take_append_of_le_length hk
          rw [hm] at htk
          rw [← htk, ← hml, List.take_left]
        have hLsplit : (".visualstudio.com/".toList) =
            ".visualstudio.com".toList ++ ['/'] := by decide
        rw [hLsplit] at hci
        obtain ⟨m1, m2, hm12, _, h2⟩ := ciEqL_append_split _ hci
        obtain ⟨e, m3, hm3, he, _⟩ := ciEqL_cons_split h2
        have he' : e = '/' := chEq_slash he
        have hslashm : '/' ∈ m := by
          rw [hm12, hm3, he']
          simp
        have hslsuf : '/' ∈ suf := List.take_subset 18 suf (hm18 ▸ hslashm)
        exact hoslash (hsub '/' hslsuf)
      · push_neg at hk
        have hk1 : 1 ≤ suf.length := by
          cases suf with
          | nil => exact absurd rfl hsuf
          | cons _ _ => simp
        have hmtake : m = suf ++ (".visualstudio.com/".toList).take (18 - suf.length) := by
          have htk : (suf ++ (".visualstudio.com/".toList ++
              (proj ++ ['/', '_', 'g', 'i', 't', '/'] ++ RP))).take 18 = m := by
            rw [hm, ← hml, List.take_left]
          rw [List.take_append_eq_append_take,
            List.take_of_length_le (by omega : suf.length ≤ 18),
            List.take_append_of_le_length (by omega : 18 - suf.length ≤
              (".visualstudio.com/".toList).length)] at htk
          exact htk.symm
        have hLtd : (".visualstudio.com/".toList) =
            (".visualstudio.com/".toList).take suf.length ++
              (".visualstudio.com/".toList).drop suf.length :=
          (List.take_append_drop _ _).symm
        rw [hLtd] at hci
        obtain ⟨m1, m2, hm12, hci1, hci2⟩ := ciEqL_append_split _ hci
        have hm1len : m1.length = suf.length := by
          have h1 := ciEqL_length hci1
          rw [List.length_take] at h1
          omega
        have hpair : m1 = suf ∧ m2 = (".visualstudio.com/".toList).take (18 - suf.length) := by
          refine List.append_inj ?_ ?_
          · rw [← hm12, hmtake]
          · rw [hm1len]
        have hcifin : ciEqL ((".visualstudio.com/".toList).drop suf.length)
            ((".visualstudio.com/".toList).take (18 - suf.length)) = true := by
          rw [← hpair.2]
          exact hci2
        generalize hgen : suf.length = n at hcifin hk hk1
        interval_cases n <;> exact absurd hcifin (by decide)
  have hmain := lazyGroup_exact afterLegacyOrg org
    (".visualstudio.com/".toList ++ (proj ++ ['/', '_', 'g', 'i', 't', '/'] ++ RP))
    (proj, repo) hone honl hnext hfail
  simp only [legacyTriple, hmain]

/-! ### Interference lemmas: the earlier patterns fail on the later shapes -/

theorem httpsColon_decomp {s' r : List Char}
    (h : dropLitCI "https:".toList s' = some r) :
    ∃ mh, s' = mh ++ ':' :: r ∧ ciEqL "https".toList mh = true := by
  have hsp : "https:".toList = "https".toList ++ [':'] := by decide
  rw [hsp] at h
  obtain ⟨r1, h1, h2⟩ := dropLitCI_append _ h
  obtain ⟨m, hm, hci⟩ := dropLitCI_some _ h1
  obtain ⟨m2, hm2, hci2⟩ := dropLitCI_some _ h2
  obtain ⟨e, m3, hm3, he, hnil⟩ := ciEqL_cons_split hci2
  have hm3nil : m3 = [] := ciEqL_nil_right hnil
  have he' : e = ':' := chEq_colon he
  refine ⟨m, ?_, hci⟩
  rw [hm, hm2, hm3, he', hm3nil]
  simp

theorem https_occ_unique_colon {U T pre s' r : List Char}
    (hsplit : U ++ ':' :: T = pre ++ s') (hU : ':' ∉ U) (hT : ':' ∉ T)
    (h : dropLitCI "https:".toList s' = some r) :
    ∃ mh, pre ++ mh = U ∧ ciEqL "https".toList mh = true ∧ r = T := by
  obtain ⟨mh, hs', hci⟩ := httpsColon_decomp h
  have hmh : ':' ∉ mh := not_mem_of_ciEqL hci (by decide)
  have hurl2 : U ++ ':' :: T = (pre ++ mh) ++ ':' :: r := by
    rw [hsplit, hs']
    simp
  have hcnt : (U ++ ':' :: T).count ':' = 1 := by
    rw [count_split, List.count_eq_zero.mpr hU, List.count_eq_zero.mpr hT]
  have hcnt2 : ((pre ++ mh) ++ ':' :: r).count ':' = 1 := by rw [← hurl2]; exact hcnt
  rw [count_split, List.count_append] at hcnt2
  have hm0 : mh.count ':' = 0 := List.count_eq_zero.mpr hmh
  have hpre0 : pre.count ':' = 0 := by omega
  have hnotpm : ':' ∉ pre ++ mh := by
    rw [List.mem_append]
    rintro (hp | hm)
    · exact absurd hp (List.count_eq_zero.mp hpre0)
    · exact hmh hm
  obtain ⟨h1, h2⟩ := append_cons_inj (pre ++ mh) U hurl2.symm hnotpm hU
  exact ⟨mh, h1, hci, h2⟩

theorem tryPat3At_none_no_at {s' : List Char} (hat : '@' ∉ s') :
    tryPat3At s' = none := by
  unfold tryPat3At
  cases hd : dropLitCI "git@ssh.dev.azure.com:v3/".toList s' with
  | none => rfl
  | some r =>
    exfalso
    obtain ⟨m, hm, hci⟩ := dropLitCI_some _ hd
    have hmem : '@' ∈ m :=
      mem_of_ciEqL_symbol hci (by decide) (fun d => chEq_at_sign)
    exact hat (hm ▸ List.mem_append_left r hmem)

theorem tryPat2At_none_no_at {s' : List Char} (hat : '@' ∉ s') :
    tryPat2At s' = none := by
  unfold tryPat2At
  cases hd : dropLitCI "https://".toList s' with
  | none => rfl
  | some r1 =>
    rw [Option.some_bind]
    cases hcr : classRunAt r1 with
    | none => rfl
    | some r2 =>
      exfalso
      obtain ⟨m, hm, _⟩ := dropLitCI_some _ hd
      obtain ⟨run, hrun, _, _⟩ := classRunAt_some hcr
      apply hat
      rw [hm, hrun]
      simp

theorem no_pat1_in_urlShape2 (user org proj RP : List Char)
    (huser : ∀ c ∈ user, isClassChar c = true)
    (hco : ':' ∉ org) (hcp : ':' ∉ proj) (hcRP : ':' ∉ RP) :
    ∀ pre s', urlShape2 user org proj RP = pre ++ s' → tryPat1At s' = none := by
  intro pre s' hsplit
  have hcu : ':' ∉ user := fun hm => absurd (huser ':' hm) (by decide)
  cases htry : tryPat1At s' with
  | none => rfl
  | some trip =>
    exfalso
    unfold tryPat1At at htry
    cases hd : dropLitCI "https://dev.azure.com/".toList s' with
    | none => rw [hd] at htry; exact absurd htry (by simp)
    | some r =>
      have hlsp : "https://dev.azure.com/".toList =
          "https:".toList ++ "//dev.azure.com/".toList := by decide
      rw [hlsp] at hd
      obtain ⟨r1, hd1, hd2⟩ := dropLitCI_append _ hd
      have hUT : urlShape2 user org proj RP = "https".toList ++ ':' ::
          ('/' :: '/' :: (user ++ '@' :: ("dev.azure.com/".toList ++
            (org ++ '/' :: (proj ++ (['/', '_', 'g', 'i', 't', '/'] ++ RP)))))) := by
        simp [urlShape2, List.append_assoc]
      have hTs : ':' ∉ ('/' :: '/' :: (user ++ '@' :: ("dev.azure.com/".toList ++
          (org ++ '/' :: (proj ++ (['/', '_', 'g', 'i', 't', '/'] ++ RP)))))) := by
        intro hm
        rcases List.mem_cons.mp hm with h | hm
        · exact absurd h (by decide)
        rcases List.mem_cons.mp hm with h | hm
        · exact absurd h (by decide)
        rcases List.mem_append.mp hm with hm | hm
        · exact hcu hm
        rcases List.mem_cons.mp hm with h | hm
        · exact absurd h (by decide)
        rcases List.mem_append.mp hm with hm | hm
        · exact absurd hm (by decide)
        rcases List.mem_append.mp hm with hm | hm
        · exact hco hm
        rcases List.mem_cons.mp hm with h | hm
        · exact absurd h (by decide)
        rcases List.mem_append.mp hm with hm | hm
        · exact hcp hm
        rcases List.mem_append.mp hm with hm | hm
        · exact absurd hm (by decide)
        exact hcRP hm
      have hsplit2 : "https".toList ++ ':' ::
          ('/' :: '/' :: (user ++ '@' :: ("dev.azure.com/".toList ++
            (org ++ '/' :: (proj ++ (['/', '_', 'g', 'i', 't', '/'] ++ RP)))))) =
          pre ++ s' := by
        rw [← hUT]; exact hsplit
      obtain ⟨mh, hpm, hci, hr1⟩ := https_occ_unique_colon hsplit2 (by decide) hTs hd1
      have hm5 : mh.length = 5 := by
        have hl := ciEqL_length hci
        have h5 : ("https".toList).length = 5 := rfl
        omega
      have hpre : pre = [] := by
        have hl := congrArg List.length hpm
        rw [List.length_append] at hl
        have h5 : ("https".toList).length = 5 := rfl
        exact List.eq_nil_of_length_eq_zero (by omega)
      rw [hr1] at hd2
      have hsp2 : "//dev.azure.com/".toList =
          '/' :: '/' :: "dev.azure.com/".toList := by decide
      rw [hsp2] at hd2
      simp only [dropLitCI, chEq_refl, if_true] at hd2
      obtain ⟨mb, hmb, hcib⟩ := dropLitCI_some _ hd2
      have hmb14 : mb.length = 14 := by
        have hl := ciEqL_length hcib
        have h14 : ("dev.azure.com/".toList).length = 14 := rfl
        omega
      by_cases hku : 14 ≤ user.length
      · have hmbtake : mb = user.take 14 := by
          have htk : (user ++ '@' :: ("dev.azure.com/".toList ++
              (org ++ '/' :: (proj ++ (['/', '_', 'g', 'i', 't', '/'] ++ RP))))).take 14 =
              user.take 14 := List.take_append_of_le_length hku
          rw [hmb] at htk
          rw [← htk, ← hmb14, List.take_left]
        have hLsp : "dev.azure.com/".toList = "dev.azure.com".toList ++ ['/'] := by decide
        rw [hLsp] at hcib
        obtain ⟨m1, m2, hm12, _, h2⟩ := ciEqL_append_split _ hcib
        obtain ⟨e, m3, hm3, he, _⟩ := ciEqL_cons_split h2
        have he' : e = '/' := chEq_slash he
        have hslmb : '/' ∈ mb := by
          rw [hm12, hm3, he']
          simp
        have hslu : '/' ∈ user := List.take_subset 14 user (hmbtake ▸ hslmb)
        exact absurd (huser '/' hslu) (by decide)
      · push_neg at hku
        have hmbtake : mb = user ++ ('@' :: ("dev.azure.com/".toList ++
            (org ++ '/' :: (proj ++ (['/', '_', 'g', 'i', 't', '/'] ++ RP))))).take
              (14 - user.length) := by
          have htk : (user ++ '@' :: ("dev.azure.com/".toList ++
              (org ++ '/' :: (proj ++ (['/', '_', 'g', 'i', 't', '/'] ++ RP))))).take 14 =
              mb := by
            rw [hmb, ← hmb14, List.take_left]
          rw [List.take_append_eq_append_take,
            List.take_of_length_le (by omega : user.length ≤ 14)] at htk
          exact htk.symm
        have hatmem : '@' ∈ mb := by
          rw [hmbtake]
          obtain ⟨j, hj⟩ : ∃ j, 14 - user.length = j + 1 := ⟨13 - user.length, by omega⟩
          rw [hj, List.take_succ_cons]
          simp
        exact (not_mem_of_ciEqL hcib (by decide)) hatmem

theorem no_https_in_urlShape3 (org proj RP : List Char)
    (hco : ':' ∉ org) (hcp : ':' ∉ proj) (hcRP : ':' ∉ RP) :
    ∀ pre s', urlShape3 org proj RP = pre ++ s' →
      dropLitCI "https:".toList s' = none := by
  intro pre s' hsplit
  cases hd : dropLitCI "https:".toList s' with
  | none => rfl
  | some r =>
    exfalso
    have hUT : urlShape3 org proj RP = "git@ssh.dev.azure.com".toList ++ ':' ::
        ('v' :: '3' :: '/' :: (org ++ '/' :: (proj ++ '/' :: RP))) := by
      simp [urlShape3, List.append_assoc]
    have hTs : ':' ∉ ('v' :: '3' :: '/' :: (org ++ '/' :: (proj ++ '/' :: RP))) := by
      intro hm
      rcases List.mem_cons.mp hm with h | hm
      · exact absurd h (by decide)
      rcases List.mem_cons.mp hm with h | hm
      · exact absurd h (by decide)
      rcases List.mem_cons.mp hm with h | hm
      · exact absurd h (by decide)
      rcases List.mem_append.mp hm with hm | hm
      · exact hco hm
      rcases List.mem_cons.mp hm with h | hm
      · exact absurd h (by decide)
      rcases List.mem_append.mp hm with hm | hm
      · exact hcp hm
      rcases List.mem_cons.mp hm with h | hm
      · exact absurd h (by decide)
      exact hcRP hm
    have hsplit2 : "git@ssh.dev.azure.com".toList ++ ':' ::
        ('v' :: '3' :: '/' :: (org ++ '/' :: (proj ++ '/' :: RP))) = pre ++ s' := by
      rw [← hUT]; exact hsplit
    obtain ⟨mh, hpm, hci, _⟩ := https_occ_unique_colon hsplit2 (by decide) hTs hd
    have hm5 : mh.length = 5 := by
      have hl := ciEqL_length hci
      have h5 : ("https".toList).length = 5 := rfl
      omega
    have hmh : mh = "e.com".toList := by
      have hsp : "git@ssh.dev.azure.com".toList =
          "git@ssh.dev.azur".toList ++ "e.com".toList := by decide
      rw [hsp] at hpm
      exact (List.append_inj' hpm (by rw [hm5]; rfl)).2
    rw [hmh] at hci
    exact absurd hci (by decide)

theorem no_pat1_of_no_https {s' : List Char}
    (h : dropLitCI "https:".toList s' = none) : tryPat1At s' = none := by
  unfold tryPat1At
  cases hd : dropLitCI "https://dev.azure.com/".toList s' with
  | none => rfl
  | some r =>
    exfalso
    have hlsp : "https://dev.azure.com/".toList =
        "https:".toList ++ "//dev.azure.com/".toList := by decide
    rw [hlsp] at hd
    obtain ⟨r1, hd1, _⟩ := dropLitCI_append _ hd
    rw [h] at hd1
    exact absurd hd1 (by simp)

theorem no_pat2_of_no_https {s' : List Char}
    (h : dropLitCI "https:".toList s' = none) : tryPat2At s' = none := by
  unfold tryPat2At
  cases hd : dropLitCI "https://".toList s' with
  | none => rfl
  | some r =>
    exfalso
    have hlsp : "https://".toList = "https:".toList ++ "//".toList := by decide
    rw [hlsp] at hd
    obtain ⟨r1, hd1, _⟩ := dropLitCI_append _ hd
    rw [h] at hd1
    exact absurd hd1 (by simp)

theorem no_pat1_in_urlShape4 (org proj RP : List Char)
    (hone : org ≠ []) (hoslash : '/' ∉ org)
    (hco : ':' ∉ org) (hcp : ':' ∉ proj) (hcRP : ':' ∉ RP) :
    ∀ pre s', urlShape4 org proj RP = pre ++ s' → tryPat1At s' = none := by
  intro pre s' hsplit
  cases htry : tryPat1At s' with
  | none => rfl
  | some trip =>
    exfalso
    unfold tryPat1At at htry
    cases hd : dropLitCI "https://dev.azure.com/".toList s' with
    | none => rw [hd] at htry; exact absurd htry (by simp)
    | some r =>
      have hlsp : "https://dev.azure.com/".toList =
          "https:".toList ++ "//dev.azure.com/".toList := by decide
      rw [hlsp] at hd
      obtain ⟨r1, hd1, hd2⟩ := dropLitCI_append _ hd
      have hUT : urlShape4 org proj RP = "https".toList ++ ':' ::
          ('/' :: '/' :: (org ++ (".visualstudio.com/".toList ++
            (proj ++ (['/', '_', 'g', 'i', 't', '/'] ++ RP))))) := by
        simp [urlShape4, List.append_assoc]
      have hTs : ':' ∉ ('/' :: '/' :: (org ++ (".visualstudio.com/".toList ++
          (proj ++ (['/', '_', 'g', 'i', 't', '/'] ++ RP))))) := by
        intro hm
        rcases List.mem_cons.mp hm with h | hm
        · exact absurd h (by decide)
        rcases List.mem_cons.mp hm with h | hm
        · exact absurd h (by decide)
        rcases List.mem_append.mp hm with hm | hm
        · exact hco hm
        rcases List.mem_append.mp hm with hm | hm
        · exact absurd hm (by decide)
        rcases List.mem_append.mp hm with hm | hm
        · exact hcp hm
        rcases List.mem_append.mp hm with hm | hm
        · exact absurd hm (by decide)
        exact hcRP hm
      have hsplit2 : "https".toList ++ ':' ::
          ('/' :: '/' :: (org ++ (".visualstudio.com/".toList ++
            (proj ++ (['/', '_', 'g', 'i', 't', '/'] ++ RP))))) = pre ++ s' := by
        rw [← hUT]; exact hsplit
      obtain ⟨mh, hpm, hci, hr1⟩ := https_occ_unique_colon hsplit2 (by decide) hTs hd1
      have hm5 : mh.length = 5 := by
        have hl := ciEqL_length hci
        have h5 : ("https".toList).length = 5 := rfl
        omega
      rw [hr1] at hd2
      have hsp2 : "//dev.azure.com/".toList =
          '/' :: '/' :: "dev.azure.com/".toList := by decide
      rw [hsp2] at hd2
      simp only [dropLitCI, chEq_refl, if_true] at hd2
      obtain ⟨mb, hmb, hcib⟩ := dropLitCI_some _ hd2
      have hmb14 : mb.length = 14 := by
        have hl := ciEqL_length hcib
        have h14 : ("dev.azure.com/".toList).length = 14 := rfl
        omega
      by_cases hko : 14 ≤ org.length
      · have hmbtake : mb = org.take 14 := by
          have htk : (org ++ (".visualstudio.com/".toList ++
              (proj ++ (['/', '_', 'g', 'i', 't', '/'] ++ RP)))).take 14 =
              org.take 14 := List.take_append_of_le_length hko
          rw [hmb] at htk
          rw [← htk, ← hmb14, List.take_left]
        have hLsp : "dev.azure.com/".toList = "dev.azure.com".toList ++ ['/'] := by decide
        rw [hLsp] at hcib
        obtain ⟨m1, m2, hm12, _, h2⟩ := ciEqL_append_split _ hcib
        obtain ⟨e, m3, hm3, he, _⟩ := ciEqL_cons_split h2
        have he' : e = '/' := chEq_slash he
        have hslmb : '/' ∈ mb := by
          rw [hm12, hm3, he']
          simp
        exact hoslash (List.take_subset 14 org (hmbtake ▸ hslmb))
      · push_neg at hko
        have hk1 : 1 ≤ org.length := by
          cases org with
          | nil => exact absurd rfl hone
          | cons _ _ => simp
        have hL18 : (".visualstudio.com/".toList).length = 18 := rfl
        have hmbtake : mb = org ++ (".visualstudio.com/".toList).take (14 - org.length) := by
          have htk : (org ++ (".visualstudio.com/".toList ++
              (proj ++ (['/', '_', 'g', 'i', 't', '/'] ++ RP)))).take 14 = mb := by
            rw [hmb, ← hmb14, List.take_left]
          rw [List.take_append_eq_append_take,
            List.take_of_length_le (by omega : org.length ≤ 14),
            List.take_append_of_le_length (by omega : 14 - org.length ≤
              (".visualstudio.com/".toList).length)] at htk
          exact htk.symm
        have hLtd : "dev.azure.com/".toList =
            ("dev.azure.com/".toList).take org.length ++
              ("dev.azure.com/".toList).drop org.length :=
          (List.take_append_drop _ _).symm
        rw [hLtd] at hcib
        obtain ⟨m1, m2, hm12, hci1, hci2⟩ := ciEqL_append_split _ hcib
        have hm1len : m1.length = org.length := by
          have h1 := ciEqL_length hci1
          rw [List.length_take] at h1
          have h14 : ("dev.azure.com/".toList).length = 14 := rfl
          omega
        have hpair : m1 = org ∧
            m2 = (".visualstudio.com/".toList).take (14 - org.length) := by
          refine List.append_inj ?_ ?_
          · rw [← hm12, hmbtake]
          · rw [hm1len]
        have hcifin : ciEqL (("dev.azure.com/".toList).drop org.length)
            ((".visualstudio.com/".toList).take (14 - org.length)) = true := by
          rw [← hpair.2]
          exact hci2
        generalize hgen : org.length = n at hcifin hko hk1
        interval_cases n <;> exact absurd hcifin (by decide)

theorem no_at_in_urlShape4 (org proj RP : List Char)
    (hao : '@' ∉ org) (hap : '@' ∉ proj) (haRP : '@' ∉ RP) :
    '@' ∉ urlShape4 org proj RP := by
  intro hm
  unfold urlShape4 at hm
  rcases List.mem_append.mp hm with hm | hm
  swap
  · exact haRP hm
  rcases List.mem_append.mp hm with hm | hm
  swap
  · exact absurd hm (by decide)
  rcases List.mem_append.mp hm with hm | hm
  swap
  · exact hap hm
  rcases List.mem_append.mp hm with hm | hm
  swap
  · exact absurd hm (by decide)
  rcases List.mem_append.mp hm with hm | hm
  · exact absurd hm (by decide)
  exact hao hm

/-! ### Per-shape parses -/

theorem searchWith_of_ne_nil {α : Type} {tryAt : List Char → Option α}
    {url : List Char} {a : α} (hne : url ≠ []) (h : tryAt url = some a) :
    searchWith tryAt url = some a := by
  cases url with
  | nil => exact absurd rfl hne
  | cons c rest => exact searchWith_pos0 h

theorem tryPat1At_urlShape1 (org proj RP repo : List Char) (hone : org ≠ [])
    (honl : ∀ c ∈ org, isLineTerm c = false) (hoslash : '/' ∉ org)
    (hpne : proj ≠ []) (hnl : ∀ c ∈ proj, isLineTerm c = false) (hslash : '/' ∉ proj)
    (htail : tailGroup RP = some repo) :
    tryPat1At (urlShape1 org proj RP) = some (org, proj, repo) := by
  have hnorm : urlShape1 org proj RP = "https://dev.azure.com/".toList ++
      (org ++ '/' :: (proj ++ ['/', '_', 'g', 'i', 't', '/'] ++ RP)) := by
    simp [urlShape1, List.append_assoc]
  rw [hnorm]
  unfold tryPat1At
  rw [dropLitCI_self, Option.some_bind]
  exact orgProjRepoGit_exact org proj RP repo hone honl hoslash hpne hnl hslash htail

theorem tryPat2At_urlShape2 (user org proj RP repo : List Char)
    (hune : user ≠ []) (huser : ∀ c ∈ user, isClassChar c = true)
    (hone : org ≠ []) (honl : ∀ c ∈ org, isLineTerm c = false) (hoslash : '/' ∉ org)
    (hpne : proj ≠ []) (hnl : ∀ c ∈ proj, isLineTerm c = false) (hslash : '/' ∉ proj)
    (htail : tailGroup RP = some repo) :
    tryPat2At (urlShape2 user org proj RP) = some (org, proj, repo) := by
  have hnorm : urlShape2 user org proj RP = "https://".toList ++
      (user ++ '@' :: ("dev.azure.com/".toList ++
        (org ++ '/' :: (proj ++ ['/', '_', 'g', 'i', 't', '/'] ++ RP)))) := by
    simp [urlShape2, List.append_assoc]
  rw [hnorm]
  unfold tryPat2At
  rw [dropLitCI_self, Option.some_bind,
    classRunAt_exact user _ hune huser, Option.some_bind,
    dropLitCI_self, Option.some_bind]
  exact orgProjRepoGit_exact org proj RP repo hone honl hoslash hpne hnl hslash htail

theorem tryPat3At_urlShape3 (org proj RP repo : List Char) (hone : org ≠ [])
    (honl : ∀ c ∈ org, isLineTerm c = false) (hoslash : '/' ∉ org)
    (hpne : proj ≠ []) (hnl : ∀ c ∈ proj, isLineTerm c = false) (hslash : '/' ∉ proj)
    (htail : tailGroup RP = some repo) :
    tryPat3At (urlShape3 org proj RP) = some (org, proj, repo) := by
  have hnorm : urlShape3 org proj RP = "git@ssh.dev.azure.com:v3/".toList ++
      (org ++ '/' :: (proj ++ '/' :: RP)) := by
    simp [urlShape3, List.append_assoc]
  rw [hnorm]
  unfold tryPat3At
  rw [dropLitCI_self, Option.some_bind]
  exact sshTriple_exact org proj RP repo hone honl hoslash hpne hnl hslash htail

theorem tryPat4At_urlShape4 (org proj RP repo : List Char) (hone : org ≠ [])
    (honl : ∀ c ∈ org, isLineTerm c = false) (hoslash : '/' ∉ org)
    (hpne : proj ≠ []) (hnl : ∀ c ∈ proj, isLineTerm c = false) (hslash : '/' ∉ proj)
    (htail : tailGroup RP = some repo) :
    tryPat4At (urlShape4 org proj RP) = some (org, proj, repo) := by
  have hnorm : urlShape4 org proj RP = "https://".toList ++
      (org ++ (".visualstudio.com/".toList ++
        (proj ++ ['/', '_', 'g', 'i', 't', '/'] ++ RP))) := by
    simp [urlShape4, List.append_assoc]
  rw [hnorm]
  unfold tryPat4At
  rw [dropLitCI_self, Option.some_bind]
  exact legacyTriple_exact org proj RP repo hone honl hoslash hpne hnl hslash htail

theorem parse_urlShape1 (org proj RP repo : List Char) (hone : org ≠ [])
    (honl : ∀ c ∈ org, isLineTerm c = false) (hoslash : '/' ∉ org)
    (hpne : proj ≠ []) (hnl : ∀ c ∈ proj, isLineTerm c = false) (hslash : '/' ∉ proj)
    (htail : tailGroup RP = some repo) :
    parseAzureRemote (urlShape1 org proj RP).asString =
      some ⟨org.asString, proj.asString, repo.asString⟩ := by
  have hne : urlShape1 org proj RP ≠ [] := by simp [urlShape1]
  have hs1 : searchWith tryPat1At (urlShape1 org proj RP) = some (org, proj, repo) :=
    searchWith_of_ne_nil hne
      (tryPat1At_urlShape1 org proj RP repo hone honl hoslash hpne hnl hslash htail)
  have htolist : ((urlShape1 org proj RP).asString).toList = urlShape1 org proj RP := rfl
  unfold parseAzureRemote
  rw [htolist, hs1]

theorem parse_urlShape2 (user org proj RP repo : List Char)
    (hune : user ≠ []) (huser : ∀ c ∈ user, isClassChar c = true)
    (hone : org ≠ []) (honl : ∀ c ∈ org, isLineTerm c = false) (hoslash : '/' ∉ org)
    (hco : ':' ∉ org)
    (hpne : proj ≠ []) (hnl : ∀ c ∈ proj, isLineTerm c = false) (hslash : '/' ∉ proj)
    (hcp : ':' ∉ proj) (hcRP : ':' ∉ RP)
    (htail : tailGroup RP = some repo) :
    parseAzureRemote (urlShape2 user org proj RP).asString =
      some ⟨org.asString, proj.asString, repo.asString⟩ := by
  have hne : urlShape2 user org proj RP ≠ [] := by simp [urlShape2]
  have hs1 : searchWith tryPat1At (urlShape2 user org proj RP) = none :=
    searchWith_none tryPat1At _ (no_pat1_in_urlShape2 user org proj RP huser hco hcp hcRP)
  have hs2 : searchWith tryPat2At (urlShape2 user org proj RP) = some (org, proj, repo) :=
    searchWith_of_ne_nil hne
      (tryPat2At_urlShape2 user org proj RP repo hune huser hone honl hoslash hpne hnl
        hslash htail)
  have htolist : ((urlShape2 user org proj RP).asString).toList =
      urlShape2 user org proj RP := rfl
  unfold parseAzureRemote
  rw [htolist, hs1, hs2]

theorem parse_urlShape3 (org proj RP repo : List Char)
    (hone : org ≠ []) (honl : ∀ c ∈ org, isLineTerm c = false) (hoslash : '/' ∉ org)
    (hco : ':' ∉ org)
    (hpne : proj ≠ []) (hnl : ∀ c ∈ proj, isLineTerm c = false) (hslash : '/' ∉ proj)
    (hcp : ':' ∉ proj) (hcRP : ':' ∉ RP)
    (htail : tailGroup RP = some repo) :
    parseAzureRemote (urlShape3 org proj RP).asString =
      some ⟨org.asString, proj.asString, repo.asString⟩ := by
  have hne : urlShape3 org proj RP ≠ [] := by simp [urlShape3]
  have hhttps := no_https_in_urlShape3 org proj RP hco hcp hcRP
  have hs1 : searchWith tryPat1At (urlShape3 org proj RP) = none :=
    searchWith_none tryPat1At _
      (fun pre s' hsp => no_pat1_of_no_https (hhttps pre s' hsp))
  have hs2 : searchWith tryPat2At (urlShape3 org proj RP) = none :=
    searchWith_none tryPat2At _
      (fun pre s' hsp => no_pat2_of_no_https (hhttps pre s' hsp))
  have hs3 : searchWith tryPat3At (urlShape3 org proj RP) = some (org, proj, repo) :=
    searchWith_of_ne_nil hne
      (tryPat3At_urlShape3 org proj RP repo hone honl hoslash hpne hnl hslash htail)
  have htolist : ((urlShape3 org proj RP).asString).toList = urlShape3 org proj RP := rfl
  unfold parseAzureRemote
  rw [htolist, hs1, hs2, hs3]

theorem parse_urlShape4 (org proj RP repo : List Char)
    (hone : org ≠ []) (honl : ∀ c ∈ org, isLineTerm c = false) (hoslash : '/' ∉ org)
    (hco : ':' ∉ org) (hao : '@' ∉ org)
    (hpne : proj ≠ []) (hnl : ∀ c ∈ proj, isLineTerm c = false) (hslash : '/' ∉ proj)
    (hcp : ':' ∉ proj) (hap : '@' ∉ proj) (hcRP : ':' ∉ RP) (haRP : '@' ∉ RP)
    (htail : tailGroup RP = some repo) :
    parseAzureRemote (urlShape4 org proj RP).asString =
      some ⟨org.asString, proj.asString, repo.asString⟩ := by
  have hne : urlShape4 org proj RP ≠ [] := by simp [urlShape4]
  have hat : '@' ∉ urlShape4 org proj RP := no_at_in_urlShape4 org proj RP hao hap haRP
  have hs1 : searchWith tryPat1At (urlShape4 org proj RP) = none :=
    searchWith_none tryPat1At _ (no_pat1_in_urlShape4 org proj RP hone hoslash hco hcp hcRP)
  have hs2 : searchWith tryPat2At (urlShape4 org proj RP) = none :=
    searchWith_none tryPat2At _ (fun pre s' hsp =>
      tryPat2At_none_no_at (fun hm => hat (by rw [hsp]; exact List.mem_append_right pre hm)))
  have hs3 : searchWith tryPat3At (urlShape4 org proj RP) = none :=
    searchWith_none tryPat3At _ (fun pre s' hsp =>
      tryPat3At_none_no_at (fun hm => hat (by rw [hsp]; exact List.mem_append_right pre hm)))
  have hs4 : searchWith tryPat4At (urlShape4 org proj RP) = some (org, proj, repo) :=
    searchWith_of_ne_nil hne
      (tryPat4At_urlShape4 org proj RP repo hone honl hoslash hpne hnl hslash htail)
  have htolist : ((urlShape4 org proj RP).asString).toList = urlShape4 org proj RP := rfl
  unfold parseAzureRemote
  rw [htolist, hs1, hs2, hs3, hs4]

theorem string_length_eq_zero (s : String) : s.length = 0 ↔ s = "" := by
  constructor
  · intro h
    cases s with
    | mk data =>
      have : data.length = 0 := h
      have hd : data = [] := List.length_eq_zero.mp this
      subst hd
      rfl
  · intro h
    subst h
    rfl

/-- C4: for every remote URL in one of the four supported shapes (standard
hosted HTTPS, HTTPS with embedded username, SSH v3, legacy
`visualstudio.com` subdomain), with or without a trailing `.git` suffix,
`parseAzureRemote` returns exactly the organization/project/repository
substrings with the `.git` suffix stripped (for components that are
non-empty, free of line terminators and of the structural delimiters of
their shape); and for every string matched by none of the four patterns it
returns the explicit no-match result `none`. -/
theorem parseAzureRemote_four_shapes :
    (∀ org proj repo : List Char, org ≠ [] → proj ≠ [] → repo ≠ [] →
       (∀ c ∈ org, isLineTerm c = false) → (∀ c ∈ proj, isLineTerm c = false) →
       (∀ c ∈ repo, isLineTerm c = false) → '/' ∉ org → '/' ∉ proj →
       endsWithGitCI repo = false →
       parseAzureRemote (urlShape1 org proj repo).asString =
         some ⟨org.asString, proj.asString, repo.asString⟩ ∧
       parseAzureRemote (urlShape1 org proj (repo ++ gitLit)).asString =
         some ⟨org.asString, proj.asString, repo.asString⟩) ∧
    (∀ user org proj repo : List Char, user ≠ [] →
       (∀ c ∈ user, isClassChar c = true) →
       org ≠ [] → proj ≠ [] → repo ≠ [] →
       (∀ c ∈ org, isLineTerm c = false) → (∀ c ∈ proj, isLineTerm c = false) →
       (∀ c ∈ repo, isLineTerm c = false) → '/' ∉ org → '/' ∉ proj →
       ':' ∉ org → ':' ∉ proj → ':' ∉ repo →
       endsWithGitCI repo = false →
       parseAzureRemote (urlShape2 user org proj repo).asString =
         some ⟨org.asString, proj.asString, repo.asString⟩ ∧
       parseAzureRemote (urlShape2 user org proj (repo ++ gitLit)).asString =
         some ⟨org.asString, proj.asString, repo.asString⟩) ∧
    (∀ org proj repo : List Char, org ≠ [] → proj ≠ [] → repo ≠ [] →
       (∀ c ∈ org, isLineTerm c = false) → (∀ c ∈ proj, isLineTerm c = false) →
       (∀ c ∈ repo, isLineTerm c = false) → '/' ∉ org → '/' ∉ proj →
       ':' ∉ org → ':' ∉ proj → ':' ∉ repo →
       endsWithGitCI repo = false →
       parseAzureRemote (urlShape3 org proj repo).asString =
         some ⟨org.asString, proj.asString, repo.asString⟩ ∧
       parseAzureRemote (urlShape3 org proj (repo ++ gitLit)).asString =
         some ⟨org.asString, proj.asString, repo.asString⟩) ∧
    (∀ org proj repo : List Char, org ≠ [] → proj ≠ [] → repo ≠ [] →
       (∀ c ∈ org, isLineTerm c = false) → (∀ c ∈ proj, isLineTerm c = false) →
       (∀ c ∈ repo, isLineTerm c = false) → '/' ∉ org → '/' ∉ proj →
       ':' ∉ org → ':' ∉ proj → ':' ∉ repo →
       '@' ∉ org → '@' ∉ proj → '@' ∉ repo →
       endsWithGitCI repo = false →
       parseAzureRemote (urlShape4 org proj repo).asString =
         some ⟨org.asString, proj.asString, repo.asString⟩ ∧
       parseAzureRemote (urlShape4 org proj (repo ++ gitLit)).asString =
         some ⟨org.asString, proj.asString, repo.asString⟩) ∧
    (∀ s : String,
       searchWith tryPat1At s.toList = none → searchWith tryPat2At s.toList = none →
       searchWith tryPat3At s.toList = none → searchWith tryPat4At s.toList = none →
       parseAzureRemote s = none) ∧
    parseAzureRemote "https://github.com/someone/tool.git" = none := by
  have hcg : ':' ∉ gitLit := by decide
  have hrgit : ∀ repo : List Char, ':' ∉ repo → ':' ∉ repo ++ gitLit := by
    intro repo h hm
    rcases List.mem_append.mp hm with hm | hm
    · exact h hm
    · exact hcg hm
  have hagit : ∀ repo : List Char, '@' ∉ repo → '@' ∉ repo ++ gitLit := by
    intro repo h hm
    rcases List.mem_append.mp hm with hm | hm
    · exact h hm
    · exact absurd hm (by decide)
  refine ⟨?_, ?_, ?_, ?_, ?_, by decide⟩
  · intro org proj repo hone hpne hrne honl hnl hrnl hoslash hslash hgit
    exact ⟨parse_urlShape1 org proj repo repo hone honl hoslash hpne hnl hslash
        (tailGroup_exact repo hrne hrnl (not_gitSuffix_of hgit)),
      parse_urlShape1 org proj (repo ++ gitLit) repo hone honl hoslash hpne hnl hslash
        (tailGroup_gitSuffix repo hrne hrnl)⟩
  · intro user org proj repo hune huser hone hpne hrne honl hnl hrnl hoslash hslash
      hco hcp hcr hgit
    exact ⟨parse_urlShape2 user org proj repo repo hune huser hone honl hoslash hco
        hpne hnl hslash hcp hcr
        (tailGroup_exact repo hrne hrnl (not_gitSuffix_of hgit)),
      parse_urlShape2 user org proj (repo ++ gitLit) repo hune huser hone honl hoslash
        hco hpne hnl hslash hcp (hrgit repo hcr)
        (tailGroup_gitSuffix repo hrne hrnl)⟩
  · intro org proj repo hone hpne hrne honl hnl hrnl hoslash hslash hco hcp hcr hgit
    exact ⟨parse_urlShape3 org proj repo repo hone honl hoslash hco hpne hnl hslash
        hcp hcr (tailGroup_exact repo hrne hrnl (not_gitSuffix_of hgit)),
      parse_urlShape3 org proj (repo ++ gitLit) repo hone honl hoslash hco hpne hnl
        hslash hcp (hrgit repo hcr) (tailGroup_gitSuffix repo hrne hrnl)⟩
  · intro org proj repo hone hpne hrne honl hnl hrnl hoslash hslash hco hcp hcr
      hao hap har hgit
    exact ⟨parse_urlShape4 org proj repo repo hone honl hoslash hco hao hpne hnl
        hslash hcp hap hcr har
        (tailGroup_exact repo hrne hrnl (not_gitSuffix_of hgit)),
      parse_urlShape4 org proj (repo ++ gitLit) repo hone honl hoslash hco hao hpne
        hnl hslash hcp hap (hrgit repo hcr) (hagit repo har)
        (tailGroup_gitSuffix repo hrne hrnl)⟩
  · intro s h1 h2 h3 h4
    unfold parseAzureRemote
    rw [h1, h2, h3, h4]

/-- C4 witness: the four shapes at concrete components (with and without
the `.git` suffix) parse to exactly those components. -/
theorem parseAzureRemote_four_shapes_witness :
    parseAzureRemote (urlShape1 "contoso".toList "WebApp".toList "frontend".toList).asString =
      some ⟨("contoso".toList).asString, ("WebApp".toList).asString,
        ("frontend".toList).asString⟩ ∧
    parseAzureRemote (urlShape2 "jdoe".toList "contoso".toList "WebApp".toList
        ("frontend".toList ++ gitLit)).asString =
      some ⟨("contoso".toList).asString, ("WebApp".toList).asString,
        ("frontend".toList).asString⟩ ∧
    parseAzureRemote (urlShape3 "contoso".toList "WebApp".toList
        ("frontend".toList ++ gitLit)).asString =
      some ⟨("contoso".toList).asString, ("WebApp".toList).asString,
        ("frontend".toList).asString⟩ ∧
    parseAzureRemote (urlShape4 "contoso".toList "WebApp".toList "frontend".toList).asString =
      some ⟨("contoso".toList).asString, ("WebApp".toList).asString,
        ("frontend".toList).asString⟩ :=
  ⟨(parseAzureRemote_four_shapes.1 "contoso".toList "WebApp".toList "frontend".toList
      (by decide) (by decide) (by decide) (by decide) (by decide) (by decide)
      (by decide) (by decide) (by decide)).1,
    (parseAzureRemote_four_shapes.2.1 "jdoe".toList "contoso".toList "WebApp".toList
      "frontend".toList (by decide) (by decide) (by decide) (by decide) (by decide)
      (by decide) (by decide) (by decide) (by decide) (by decide) (by decide)
      (by decide) (by decide) (by decide)).2,
    (parseAzureRemote_four_shapes.2.2.1 "contoso".toList "WebApp".toList
      "frontend".toList (by decide) (by decide) (by decide) (by decide) (by decide)
      (by decide) (by decide) (by decide) (by decide) (by decide) (by decide)
      (by decide)).2,
    (parseAzureRemote_four_shapes.2.2.2.1 "contoso".toList "WebApp".toList
      "frontend".toList (by decide) (by decide) (by decide) (by decide) (by decide)
      (by decide) (by decide) (by decide) (by decide) (by decide) (by decide)
      (by decide) (by decide) (by decide) (by decide)).1⟩

/-- C10: `requireParam` rejects exactly `undefined`, `null` and the empty
string, passing every other value (in particular the number `0`) through
unchanged; the dispatcher accepts `0` as a present `pullRequestId` or
`threadId` and dispatches it. -/
theorem requireParam_rejects_exactly_nullish_and_empty :
    (∀ (v : JsValue) (n : String),
       requireParam v n = .error ("Missing required parameter: " ++ n) ↔
         (v = .undef ∨ v = .vnull ∨ v = .vstr "")) ∧
    (∀ (v : JsValue) (n : String),
       ¬(v = .undef ∨ v = .vnull ∨ v = .vstr "") → requireParam v n = .ok v) ∧
    (∀ ctx, execute ⟨.get_pr, .vnum 0, .undef, .undef, .undef, ctx⟩ =
       .ok (.getPullRequest (.vnum 0))) ∧
    (∀ ctx, execute ⟨.resolve_thread, .vnum 1, .vnum 0, .undef, .vstr "fixed", ctx⟩ =
       .ok (.updateThreadStatus (.vnum 1) (.vnum 0) (.vstr "fixed"))) := by
  refine ⟨?_, ?_, fun ctx => rfl, fun ctx => rfl⟩
  · intro v n
    cases v with
    | undef => simp [requireParam, isMissingValue]
    | vnull => simp [requireParam, isMissingValue]
    | vstr s =>
      by_cases h : s = ""
      · subst h; simp [requireParam, isMissingValue]
      · have : s.length ≠ 0 := fun hc => h ((string_length_eq_zero s).mp hc)
        simp [requireParam, isMissingValue, this, h]
    | vnum n' => simp [requireParam, isMissingValue]
  · intro v n hv
    cases v with
    | undef => exact absurd (Or.inl rfl) hv
    | vnull => exact absurd (Or.inr (Or.inl rfl)) hv
    | vstr s =>
      have hs : s ≠ "" := fun hc => hv (Or.inr (Or.inr (by rw [hc])))
      have : s.length ≠ 0 := fun hc => hs ((string_length_eq_zero s).mp hc)
      simp [requireParam, isMissingValue, this]
    | vnum n' => simp [requireParam, isMissingValue]

/-- C10 witness: the number `0` passes `requireParam` and a `get_pr`
dispatch with `pullRequestId = 0` resolves to `getPullRequest 0`. -/
theorem requireParam_zero_accepted :
    requireParam (.vnum 0) "pullRequestId" = .ok (.vnum 0) ∧
    execute ⟨.get_pr, .vnum 0, .undef, .undef, .undef, none⟩ =
      .ok (.getPullRequest (.vnum 0)) :=
  ⟨requireParam_rejects_exactly_nullish_and_empty.2.1 (.vnum 0) "pullRequestId"
      (by intro h; rcases h with h | h | h <;> exact JsValue.noConfusion h),
    requireParam_rejects_exactly_nullish_and_empty.2.2.1 none⟩

/-- C1 (as frozen) is refuted: on a fresh process, dispatching
`post_comment` without `content` raises the missing-parameter validation
error, but one HTTP request (the initialization's repository-metadata
fetch, performed by `getInstance` before the switch) has already been made
— not zero. -/
theorem postComment_missing_content_fresh_process_makes_one_call :
    executeWithInstance false ⟨.post_comment, .vnum 1, .undef, .undef, .undef, none⟩
        (fun _ => 1) =
      (.error "Missing required parameter: content", 1) := rfl

/-- C1 (amended): a dispatch whose required-parameter validation fails
raises the locally generated missing-parameter error and performs no
action-level HTTP call; in particular, with the service singleton already
initialized, dispatching `post_comment` without `content` yields the
validation error with zero HTTP calls performed. -/
theorem missing_param_error_is_local :
    (∀ (params : ToolParams) (callsOf : ServiceCall → Nat) (e : String),
       execute params = .error e →
       executeWithInstance true params callsOf = (.error e, 0)) ∧
    (∀ (pr : Int) (tid st c : JsValue) (ctx : Option ThreadContext)
        (callsOf : ServiceCall → Nat),
       isMissingValue c = true →
       execute ⟨.post_comment, .vnum pr, tid, c, st, ctx⟩ =
           .error "Missing required parameter: content" ∧
       executeWithInstance true ⟨.post_comment, .vnum pr, tid, c, st, ctx⟩ callsOf =
           (.error "Missing required parameter: content", 0)) := by
  constructor
  · intro params callsOf e h
    simp [executeWithInstance, h]
  · intro pr tid st c ctx callsOf h
    have hex : execute ⟨.post_comment, .vnum pr, tid, c, st, ctx⟩ =
        .error "Missing required parameter: content" := by
      have hpr : isMissingValue (JsValue.vnum pr) = false := rfl
      simp [execute, requireParam, h, hpr, Bind.bind, Except.bind]
    exact ⟨hex, by simp [executeWithInstance, hex]⟩

/-- C1 witness: concrete instance of the amended statement. -/
theorem missing_param_error_is_local_witness :
    executeWithInstance true ⟨.post_comment, .vnum 7, .undef, .undef, .undef, none⟩
        (fun _ => 1) =
      (.error "Missing required parameter: content", 0) :=
  (missing_param_error_is_local.2 7 .undef .undef .undef none (fun _ => 1) rfl).2

/-- C7: a `resolve_thread` dispatch with no `status` field invokes
`updateThreadStatus` with status `"closed"`, and the PATCH request that
method builds carries the payload `{ status: "closed" }`. -/
theorem resolve_thread_defaults_to_closed :
    (∀ (pr tid : Int) (c : JsValue) (ctx : Option ThreadContext),
       execute ⟨.resolve_thread, .vnum pr, .vnum tid, c, .undef, ctx⟩ =
         .ok (.updateThreadStatus (.vnum pr) (.vnum tid) (.vstr "closed"))) ∧
    (∀ (repoId : String) (pr tid : Int),
       (updateThreadStatusRequest repoId pr tid "closed").body =
         .threadStatusPatch "closed") :=
  ⟨fun _ _ _ _ => rfl, fun _ _ _ => rfl⟩

/-- C3: on a pull request with no iterations, `getPullRequestDiff` returns
the empty change list, performing no change-list request (the second step
is skipped), and raises no error. -/
theorem diff_empty_iterations_returns_empty (changesOf : Int → List PullRequestChange) :
    getPullRequestDiff [] changesOf = ([], 0) := rfl

/-- C2: on a non-empty iteration list, `getPullRequestDiff` fetches the
change list of the iteration with the numerically highest id, regardless of
listing order; and for iteration ids `[3, 1, 5]` it selects iteration `5`'s
changes. -/
theorem diff_selects_highest_iteration :
    (∀ (its : List Iteration) (changesOf : Int → List PullRequestChange),
       its ≠ [] →
       ∃ m, getLatestIterationId its = some m ∧
         (∀ it ∈ its, it.id ≤ m) ∧
         m ∈ its.map Iteration.id ∧
         getPullRequestDiff its changesOf = (changesOf m, 1)) ∧
    (∀ changesOf : Int → List PullRequestChange,
       getPullRequestDiff [⟨3, "d3"⟩, ⟨1, "d1"⟩, ⟨5, "d5"⟩] changesOf =
         (changesOf 5, 1)) := by
  constructor
  · intro its changesOf hne
    have hperm : (List.insertionSort iterLe its).Perm its :=
      List.perm_insertionSort iterLe its
    have hsorted : List.Sorted iterLe (List.insertionSort iterLe its) :=
      List.sorted_insertionSort iterLe its
    have hsne : List.insertionSort iterLe its ≠ [] := by
      intro h
      apply hne
      have hlen := hperm.length_eq
      rw [h] at hlen
      exact List.eq_nil_of_length_eq_zero hlen.symm
    rcases List.eq_nil_or_concat (List.insertionSort iterLe its) with h | ⟨ys, y, hconc⟩
    · exact absurd h hsne
    have hconc' : List.insertionSort iterLe its = ys ++ [y] := by
      rw [hconc]; simp [List.concat_eq_append]
    have hlast : (List.insertionSort iterLe its).getLast? = some y := by
      rw [hconc']; exact List.getLast?_concat ys
    have hlenne : its.length ≠ 0 := by
      intro h; exact hne (List.eq_nil_of_length_eq_zero h)
    have hlatest : getLatestIterationId its = some y.id := by
      simp [getLatestIterationId, hlenne, hlast]
    refine ⟨y.id, hlatest, ?_, ?_, ?_⟩
    · intro it hit
      have hmem : it ∈ ys ++ [y] := by
        rw [← hconc']; exact hperm.mem_iff.mpr hit
      rcases List.mem_append.mp hmem with h | h
      · have hpw := hsorted
        rw [hconc'] at hpw
        rcases List.pairwise_append.mp hpw with ⟨_, _, hrel⟩
        exact hrel it h y (List.mem_singleton.mpr rfl)
      · rw [List.mem_singleton.mp h]
    · have : y ∈ its := hperm.mem_iff.mp (by rw [hconc']; simp)
      exact List.mem_map.mpr ⟨y, this, rfl⟩
    · simp [getPullRequestDiff, hlatest]
  · intro changesOf
    have h5 : getLatestIterationId [⟨3, "d3"⟩, ⟨1, "d1"⟩, ⟨5, "d5"⟩] = some 5 := by decide
    simp [getPullRequestDiff, h5]

/-- C2 witness: the `[3, 1, 5]` example, instantiating the general
statement at a concrete stub. -/
theorem diff_selects_highest_iteration_witness :
    ([⟨3, "d3"⟩, ⟨1, "d1"⟩, ⟨5, "d5"⟩] : List Iteration) ≠ [] ∧
    ∃ m, getLatestIterationId [⟨3, "d3"⟩, ⟨1, "d1"⟩, ⟨5, "d5"⟩] = some m ∧
      (∀ it ∈ ([⟨3, "d3"⟩, ⟨1, "d1"⟩, ⟨5, "d5"⟩] : List Iteration), it.id ≤ m) ∧
      m ∈ ([⟨3, "d3"⟩, ⟨1, "d1"⟩, ⟨5, "d5"⟩] : List Iteration).map Iteration.id ∧
      getPullRequestDiff [⟨3, "d3"⟩, ⟨1, "d1"⟩, ⟨5, "d5"⟩]
          (fun i => if i = 5 then [⟨"edit", some "src/a.ts"⟩] else []) =
        ((fun i => if i = 5 then [⟨"edit", some "src/a.ts"⟩] else []) m, 1) :=
  ⟨by decide,
    diff_selects_highest_iteration.1 [⟨3, "d3"⟩, ⟨1, "d1"⟩, ⟨5, "d5"⟩]
      (fun i => if i = 5 then [⟨"edit", some "src/a.ts"⟩] else []) (by decide)⟩

/-- C5: a non-2xx response makes the request path raise, without retrying
(a single transport call), an error whose message carries the numeric
status code, the status text, and the body text verbatim. -/
theorem non2xx_response_raises_with_status (transport : HttpRequestModel → HttpResponse)
    (parseJson : String → Except String Unit) (repoId : String) (prId : Int)
    (h : ¬(200 ≤ (transport (getPullRequestRequest repoId prId)).status ∧
           (transport (getPullRequestRequest repoId prId)).status ≤ 299)) :
    ∃ msg,
      getPullRequestRun transport parseJson repoId prId = (.error msg, 1) ∧
      (∃ a b, msg = a ++ toString (transport (getPullRequestRequest repoId prId)).status ++ b) ∧
      (∃ a b, msg = a ++ (transport (getPullRequestRequest repoId prId)).statusText ++ b) ∧
      (∃ a b, msg = a ++ (transport (getPullRequestRequest repoId prId)).bodyText ++ b) := by
  have hok : responseOk (transport (getPullRequestRequest repoId prId)) = false := by
    simp only [responseOk, Bool.and_eq_false_iff, decide_eq_false_iff_not]
    by_cases h1 : 200 ≤ (transport (getPullRequestRequest repoId prId)).status
    · exact Or.inr (fun h2 => h ⟨h1, h2⟩)
    · exact Or.inl h1
  refine ⟨"Azure DevOps request failed ("
      ++ toString (transport (getPullRequestRequest repoId prId)).status ++ " "
      ++ (transport (getPullRequestRequest repoId prId)).statusText ++ "): "
      ++ (transport (getPullRequestRequest repoId prId)).bodyText, ?_, ?_, ?_, ?_⟩
  · simp [getPullRequestRun, requestRun, handleResponse, hok]
  · exact ⟨"Azure DevOps request failed (",
      " " ++ (transport (getPullRequestRequest repoId prId)).statusText ++ "): "
        ++ (transport (getPullRequestRequest repoId prId)).bodyText,
      by simp [String.append_assoc]⟩
  · exact ⟨"Azure DevOps request failed ("
        ++ toString (transport (getPullRequestRequest repoId prId)).status ++ " ",
      "): " ++ (transport (getPullRequestRequest repoId prId)).bodyText,
      by simp [String.append_assoc]⟩
  · exact ⟨"Azure DevOps request failed ("
        ++ toString (transport (getPullRequestRequest repoId prId)).status ++ " "
        ++ (transport (getPullRequestRequest repoId prId)).statusText ++ "): ",
      "", by simp [String.append_assoc]⟩

/-- C5 witness: a stubbed 404 on `get_pr` produces an error whose message
contains "404" (and the status text and body verbatim). -/
theorem non2xx_response_raises_with_status_witness :
    ∃ msg,
      getPullRequestRun (fun _ => ⟨404, "Not Found", "no such PR"⟩)
          (fun _ => .ok ()) "repo-guid" 12 = (.error msg, 1) ∧
      (∃ a b, msg = a ++ toString (404 : Nat) ++ b) ∧
      (∃ a b, msg = a ++ "Not Found" ++ b) ∧
      (∃ a b, msg = a ++ "no such PR" ++ b) :=
  non2xx_response_raises_with_status (fun _ => ⟨404, "Not Found", "no such PR"⟩)
    (fun _ => .ok ()) "repo-guid" 12 (by decide)

/-- C6: a 204 response makes the request path of `updateThreadStatus`
(the `resolve_thread` action) return an empty result without attempting to
parse a body — for every JSON parser, including an always-failing one. -/
theorem status_204_returns_empty {α : Type} (transport : HttpRequestModel → HttpResponse)
    (parseJson : String → Except String α) (repoId : String) (prId tid : Int)
    (status : String)
    (h : (transport (updateThreadStatusRequest repoId prId tid status)).status = 204) :
    updateThreadStatusRun transport parseJson repoId prId tid status = (.ok none, 1) := by
  have hok : responseOk (transport (updateThreadStatusRequest repoId prId tid status)) = true := by
    simp [responseOk, h]
  simp [updateThreadStatusRun, requestRun, handleResponse, hok, h]

/-- C6 witness: a stubbed 204 on `resolve_thread`, against a parser that
always fails, still resolves to the empty result rather than a parse
error. -/
theorem status_204_returns_empty_witness :
    updateThreadStatusRun (fun _ => ⟨204, "No Content", ""⟩)
        (fun _ => (.error "parse failure" : Except String Unit))
        "repo-guid" 12 3 "closed" = (.ok none, 1) :=
  status_204_returns_empty (fun _ => ⟨204, "No Content", ""⟩)
    (fun _ => .error "parse failure") "repo-guid" 12 3 "closed" rfl

/-- C8: with the token variable absent, or set to a string that trims to
empty, initialization fails with the configuration error before the git
remote is read and before any HTTP request (both counters are zero). -/
theorem empty_token_fails_before_network :
    (∀ (remoteUrl : String) (meta : Except String (Option String)),
       initService none remoteUrl meta =
         (.error "ADO_PAT environment variable is not set", 0, 0)) ∧
    (∀ (s : String) (remoteUrl : String) (meta : Except String (Option String)),
       (jsTrim s.toList).asString = "" →
       initService (some s) remoteUrl meta =
         (.error "ADO_PAT environment variable is not set", 0, 0)) := by
  constructor
  · intro remoteUrl meta; rfl
  · intro s remoteUrl meta h
    have h' : (jsTrim s.data).asString = "" := h
    simp [initService, h']

/-- C8 witness: a whitespace-only token value fails with zero git and HTTP
activity. -/
theorem empty_token_fails_before_network_witness :
    (jsTrim "   ".toList).asString = "" ∧
    initService (some "   ") "https://dev.azure.com/o/p/_git/r" (.ok (some "id")) =
      (.error "ADO_PAT environment variable is not set", 0, 0) :=
  ⟨by decide,
    empty_token_fails_before_network.2 "   " "https://dev.azure.com/o/p/_git/r"
      (.ok (some "id")) (by decide)⟩

theorem getInstanceCalls_cached (n : Nat) (r : Except String ServiceState)
    (init : Unit → Except String ServiceState) :
    getInstanceCalls n (some r) init = (List.replicate n r, some r, 0) := by
  induction n with
  | zero => rfl
  | succ k ih => simp [getInstanceCalls, getInstanceStep, ih, List.replicate_succ]

/-- C9: however many (at least one) times `getInstance` is called, the
initialization sequence runs exactly once, and every caller observes the
same outcome — the first initialization's resolved instance or its
failure. -/
theorem getInstance_memoized (n : Nat) (init : Unit → Except String ServiceState)
    (h : 1 ≤ n) :
    (getInstanceCalls n none init).2.2 = 1 ∧
    ∀ r ∈ (getInstanceCalls n none init).1, r = init () := by
  obtain ⟨k, rfl⟩ : ∃ k, n = k + 1 := ⟨n - 1, by omega⟩
  have hstep : getInstanceCalls (k + 1) none init =
      (init () :: List.replicate k (init ()), some (init ()), 1) := by
    simp [getInstanceCalls, getInstanceStep, getInstanceCalls_cached]
  rw [hstep]
  refine ⟨rfl, ?_⟩
  intro r hr
  rcases List.mem_cons.mp hr with h | h
  · exact h
  · exact (List.mem_replicate.mp h).2

/-- C9 witness: three calls with a failing initializer — one discovery run,
all callers observe the same failure. -/
theorem getInstance_memoized_witness :
    (getInstanceCalls 3 none (fun _ => .error "boom")).2.2 = 1 ∧
    ∀ r ∈ (getInstanceCalls 3 none (fun _ => .error "boom")).1, r = .error "boom" :=
  getInstance_memoized 3 (fun _ => .error "boom") (by decide)

end AdoReviewer
